import Mathlib

/-!
Verification of the UX Assertion Video Validator (Design-Intent-Validation-Engine).

Shallow embedding of the evaluation orchestration core:
  - a JSON value model with a printer and a recursive-descent parser,
    modelling the `JSON.stringify` / `JSON.parse` runtime primitives
    (JSON numbers are modelled as arbitrary-precision integers; numerals
    with a fraction or exponent part, and lone-surrogate escapes, are
    outside the model — none of the properties under study exercise them);
  - `parseJsonFromResponse` with its markdown-fence stripping regex;
  - `sampleFramesEvenly`;
  - the three strategy pipelines (`single`, `batch`, `two-pass`) and the
    `runPipeline` dispatcher from `src/claudeAgent.js`;
  - the tool executor and the agentic orchestrator loop.

Strings are modelled as `List Char`.  Model responses are supplied by a
call-indexed oracle `respond : Nat -> ...` (the i-th `client.messages.create`
call returns `respond i`); prompt construction (which only affects what is
sent to the model, never what is computed from its answer) is not modelled.
-/

namespace DIVE

/-- The left-brace character (written by code point to keep string literals plain). -/
def lbrace : Char := Char.ofNat 123

/-- The right-brace character. -/
def rbrace : Char := Char.ofNat 125

/-- The backtick character. -/
def btick : Char := Char.ofNat 96

/-- JSON values as produced by `JSON.parse`.  Numbers are modelled as integers. -/
inductive Json where
  | null
  | bool (b : Bool)
  | num (n : Int)
  | str (s : List Char)
  | arr (elems : List Json)
  | obj (fields : List (List Char × Json))
deriving Repr

/-- Decimal digit character for `d < 10`. -/
def digitChar (d : Nat) : Char := Char.ofNat (48 + d)

/-- Fuel-indexed decimal-digit worker (structural recursion, so that it
reduces inside the kernel). -/
def natDigitsAux : Nat → Nat → List Char
  | 0, _ => []
  | fuel + 1, n =>
    if n < 10 then [digitChar n]
    else natDigitsAux fuel (n / 10) ++ [digitChar (n % 10)]

/-- Decimal digits of a natural number, most significant first (no leading zeros). -/
def natDigits (n : Nat) : List Char := natDigitsAux (n + 1) n

/-- Decimal rendering of an integer, as `JSON.stringify` prints integral numbers. -/
def intDigits (n : Int) : List Char :=
  if n < 0 then '-' :: natDigits n.natAbs else natDigits n.toNat

/-- Lower-case hexadecimal digit character for `d < 16`. -/
def hexChar (d : Nat) : Char :=
  if d < 10 then Char.ofNat (48 + d) else Char.ofNat (97 + d - 10)

/-- Escape one character of a JSON string the way `JSON.stringify` does:
`"` and `\` get a backslash, the five short control escapes are used where
available, all other control characters become `\u00xx`. -/
def escapeChar (c : Char) : List Char :=
  if c = '"' then ['\\', '"']
  else if c = '\\' then ['\\', '\\']
  else if c = Char.ofNat 8 then ['\\', 'b']
  else if c = Char.ofNat 12 then ['\\', 'f']
  else if c = '\n' then ['\\', 'n']
  else if c = '\r' then ['\\', 'r']
  else if c = '\t' then ['\\', 't']
  else if c.toNat < 32 then ['\\', 'u', '0', '0', hexChar (c.toNat / 16), hexChar (c.toNat % 16)]
  else [c]

/-- Escape a whole string body. -/
def escapeString (s : List Char) : List Char :=
  s.foldr (fun c acc => escapeChar c ++ acc) []

mutual

/-- `JSON.stringify` (compact form, no indentation). -/
def printJson : Json → List Char
  | .null => 'n' :: ['u', 'l', 'l']
  | .bool true => 't' :: ['r', 'u', 'e']
  | .bool false => 'f' :: ['a', 'l', 's', 'e']
  | .num n => intDigits n
  | .str s => '"' :: (escapeString s ++ ['"'])
  | .arr xs => '[' :: (printElems xs ++ [']'])
  | .obj fs => lbrace :: (printMembers fs ++ [rbrace])

/-- Comma-separated array elements. -/
def printElems : List Json → List Char
  | [] => []
  | [x] => printJson x
  | x :: y :: rest => printJson x ++ ',' :: printElems (y :: rest)

/-- Comma-separated object members. -/
def printMembers : List (List Char × Json) → List Char
  | [] => []
  | [(k, v)] => '"' :: (escapeString k ++ '"' :: ':' :: printJson v)
  | (k, v) :: m :: rest =>
      ('"' :: (escapeString k ++ '"' :: ':' :: printJson v)) ++ ',' :: printMembers (m :: rest)

end

/-- JSON grammar whitespace (`JSON.parse` insignificant whitespace). -/
def isJsonWs (c : Char) : Bool :=
  c = ' ' || c = '\t' || c = '\n' || c = '\r'

/-- Drop leading JSON whitespace. -/
def skipWs (cs : List Char) : List Char := cs.dropWhile isJsonWs

/-- Decimal digit test. -/
def isDigitCh (c : Char) : Bool := 48 ≤ c.toNat && c.toNat ≤ 57

/-- Value of a decimal digit character. -/
def digitVal (c : Char) : Nat := c.toNat - 48

/-- Read a decimal digit run as a natural number. -/
def readNat (ds : List Char) : Nat := ds.foldl (fun a c => 10 * a + digitVal c) 0

/-- Value of a hexadecimal digit character (either case), if it is one. -/
def hexVal (c : Char) : Option Nat :=
  if 48 ≤ c.toNat && c.toNat ≤ 57 then some (c.toNat - 48)
  else if 97 ≤ c.toNat && c.toNat ≤ 102 then some (c.toNat - 87)
  else if 65 ≤ c.toNat && c.toNat ≤ 70 then some (c.toNat - 55)
  else none

/-- Character denoted by a single-character JSON escape. -/
def escCode (c : Char) : Option Char :=
  if c = '"' then some '"'
  else if c = '\\' then some '\\'
  else if c = '/' then some '/'
  else if c = 'b' then some (Char.ofNat 8)
  else if c = 'f' then some (Char.ofNat 12)
  else if c = 'n' then some '\n'
  else if c = 'r' then some '\r'
  else if c = 't' then some '\t'
  else none

/-- Parse a JSON string body (after the opening quote), returning the decoded
string and the input after the closing quote. -/
def parseStringBody : List Char → Option (List Char × List Char)
  | [] => none
  | c :: rest =>
    if c = '"' then some ([], rest)
    else if c = '\\' then
      match rest with
      | [] => none
      | e :: rest2 =>
        if e = 'u' then
          match rest2 with
          | h1 :: h2 :: h3 :: h4 :: rest3 =>
            match hexVal h1, hexVal h2, hexVal h3, hexVal h4 with
            | some x1, some x2, some x3, some x4 =>
                (parseStringBody rest3).map
                  (fun p => (Char.ofNat (((x1 * 16 + x2) * 16 + x3) * 16 + x4) :: p.1, p.2))
            | _, _, _, _ => none
          | _ => none
        else
          match escCode e with
          | some ec => (parseStringBody rest2).map (fun p => (ec :: p.1, p.2))
          | none => none
    else if c.toNat < 32 then none
    else (parseStringBody rest).map (fun p => (c :: p.1, p.2))

/-- Parse a JSON natural-number literal (maximal digit run, no leading zeros). -/
def parseNat (cs : List Char) : Option (Nat × List Char) :=
  let ds := cs.takeWhile isDigitCh
  let rest := cs.dropWhile isDigitCh
  if ds.isEmpty then none
  else if ds.head? == some '0' && ds.length != 1 then none
  else some (readNat ds, rest)

mutual

/-- Recursive-descent JSON value parse step, fuel-indexed.  Models `JSON.parse`
(restricted to integer numerals, see the file header). -/
def parseValue : Nat → List Char → Option (Json × List Char)
  | 0, _ => none
  | fuel + 1, cs =>
    match skipWs cs with
    | [] => none
    | c :: rest =>
      if c = 'n' then
        match rest with
        | 'u' :: 'l' :: 'l' :: r => some (.null, r)
        | _ => none
      else if c = 't' then
        match rest with
        | 'r' :: 'u' :: 'e' :: r => some (.bool true, r)
        | _ => none
      else if c = 'f' then
        match rest with
        | 'a' :: 'l' :: 's' :: 'e' :: r => some (.bool false, r)
        | _ => none
      else if c = '"' then
        (parseStringBody rest).map (fun p => (.str p.1, p.2))
      else if c = '[' then
        match skipWs rest with
        | [] => none
        | c2 :: r2 =>
            if c2 = ']' then some (.arr [], r2)
            else (parseElems fuel (c2 :: r2)).map (fun p => (.arr p.1, p.2))
      else if c = lbrace then
        match skipWs rest with
        | [] => none
        | c2 :: r2 =>
            if c2 = rbrace then some (.obj [], r2)
            else (parseMembers fuel (c2 :: r2)).map (fun p => (.obj p.1, p.2))
      else if c = '-' then
        (parseNat rest).map (fun p => (.num (-(p.1 : Int)), p.2))
      else if isDigitCh c then
        (parseNat (c :: rest)).map (fun p => (.num (p.1 : Int), p.2))
      else none

/-- Parse one or more comma-separated array elements and the closing bracket. -/
def parseElems : Nat → List Char → Option (List Json × List Char)
  | 0, _ => none
  | fuel + 1, cs =>
    match parseValue fuel cs with
    | none => none
    | some (v, r) =>
      match skipWs r with
      | [] => none
      | c :: r2 =>
        if c = ',' then (parseElems fuel r2).map (fun p => (v :: p.1, p.2))
        else if c = ']' then some ([v], r2)
        else none

/-- Parse one or more comma-separated object members and the closing brace. -/
def parseMembers : Nat → List Char → Option (List (List Char × Json) × List Char)
  | 0, _ => none
  | fuel + 1, cs =>
    match skipWs cs with
    | [] => none
    | c :: r =>
      if c = '"' then
        match parseStringBody r with
        | none => none
        | some (k, r2) =>
          match skipWs r2 with
          | [] => none
          | c2 :: r3 =>
            if c2 = ':' then
              match parseValue fuel r3 with
              | none => none
              | some (v, r4) =>
                match skipWs r4 with
                | [] => none
                | c3 :: r5 =>
                  if c3 = ',' then (parseMembers fuel r5).map (fun p => ((k, v) :: p.1, p.2))
                  else if c3 = rbrace then some ([(k, v)], r5)
                  else none
            else none
      else none

end

/-- `JSON.parse`: the whole (whitespace-trimmed) input must be one JSON value. -/
def jsonParse (cs : List Char) : Option Json :=
  match parseValue (cs.length + 1) cs with
  | some (v, rest) => if (skipWs rest).isEmpty then some v else none
  | none => none

/-- A list does not begin with a decimal digit (numbers are the one JSON form
that is not self-delimiting). -/
def noDigitStart : List Char → Bool
  | [] => true
  | c :: _ => !isDigitCh c

mutual

/-- Structural size of a JSON value (used for strong induction over the
nested inductive). -/
def sizeJson : Json → Nat
  | .arr xs => 1 + sizeElems xs
  | .obj fs => 1 + sizeMembers fs
  | _ => 1

/-- Size of an element list. -/
def sizeElems : List Json → Nat
  | [] => 0
  | v :: rest => 1 + sizeJson v + sizeElems rest

/-- Size of a member list. -/
def sizeMembers : List (List Char × Json) → Nat
  | [] => 0
  | (_, v) :: rest => 1 + sizeJson v + sizeMembers rest

end

mutual

/-- Parser fuel needed for a value (one unit per `parseValue`/`parseElems`/
`parseMembers` recursion step). -/
def jfuel : Json → Nat
  | .arr xs => 1 + jfuelElems xs
  | .obj fs => 1 + jfuelMembers fs
  | _ => 1

/-- Fuel needed for an element list. -/
def jfuelElems : List Json → Nat
  | [] => 0
  | v :: rest => 1 + jfuel v + jfuelElems rest

/-- Fuel needed for a member list. -/
def jfuelMembers : List (List Char × Json) → Nat
  | [] => 0
  | (_, v) :: rest => 1 + jfuel v + jfuelMembers rest

end

/-! ### `parseJsonFromResponse`: markdown fence stripping (the JS regex
`/```(?:json)?\s*([\s\S]*?)```/`) followed by `JSON.parse`. -/

/-- The JavaScript `\s` / `String.prototype.trim` whitespace set. -/
def isJsWs (c : Char) : Bool :=
  c = ' ' || c = '\t' || c = '\n' || c = Char.ofNat 11 || c = Char.ofNat 12 || c = '\r' ||
  c.toNat = 0xa0 || c.toNat = 0x1680 ||
  (0x2000 ≤ c.toNat && c.toNat ≤ 0x200a) ||
  c.toNat = 0x2028 || c.toNat = 0x2029 || c.toNat = 0x202f || c.toNat = 0x205f ||
  c.toNat = 0x3000 || c.toNat = 0xfeff

/-- `String.prototype.trim`. -/
def jsTrim (cs : List Char) : List Char :=
  ((cs.dropWhile isJsWs).reverse.dropWhile isJsWs).reverse

/-- A triple backtick. -/
def ticks : List Char := [btick, btick, btick]

/-- The optional `json` fence tag. -/
def jsonTag : List Char := ['j', 's', 'o', 'n']

/-- Split at the first occurrence of ``` : the part before it and the part
after it (the non-greedy `([\s\S]*?)``` of the regex). -/
def splitAtTicks : List Char → Option (List Char × List Char)
  | [] => none
  | c :: rest =>
    if ticks.isPrefixOf (c :: rest) then some ([], (c :: rest).drop 3)
    else (splitAtTicks rest).map (fun p => (c :: p.1, p.2))

/-- One attempt of the fence regex anchored at the current position:
opening ``` , optional greedy `json` tag, greedy `\s*`, then the non-greedy
capture up to the next ``` . -/
def tryFenceAt (cs : List Char) : Option (List Char) :=
  if ticks.isPrefixOf cs then
    let cs1 := cs.drop 3
    let cs2 := if jsonTag.isPrefixOf cs1 then cs1.drop 4 else cs1
    let cs3 := cs2.dropWhile isJsWs
    (splitAtTicks cs3).map Prod.fst
  else none

/-- First match of the fence regex over the string (the regex engine advances
one position at a time), returning the captured group. -/
def findFence : List Char → Option (List Char)
  | [] => none
  | c :: rest =>
    match tryFenceAt (c :: rest) with
    | some cap => some cap
    | none => findFence rest

/-- Runtime error conditions of the embedded JavaScript fragments:
`MalformedOutput` is a `JSON.parse` `SyntaxError`; `typeError` is the
`TypeError` raised by a property access on `null`/`undefined`. -/
inductive JsErr where
  | malformedOutput
  | typeError
deriving DecidableEq, Repr

/-- The text `parseJsonFromResponse` hands to `JSON.parse`: trim, strip one
optional fenced code block, trim again. -/
def stripResponse (text : List Char) : List Char :=
  let raw := jsTrim text
  match findFence raw with
  | some cap => jsTrim cap
  | none => raw

/-- `parseJsonFromResponse` from `src/claudeAgent.js` (the callers always pass
a string, so the `(text || '')` guard is the identity on this domain). -/
def parseJsonFromResponse (text : List Char) : Except JsErr Json :=
  match jsonParse (stripResponse text) with
  | some v => .ok v
  | none => .error JsErr.malformedOutput

/-- Whether ``` occurs as a contiguous substring. -/
def hasTicks : List Char → Bool
  | [] => false
  | c :: rest => ticks.isPrefixOf (c :: rest) || hasTicks rest

/-- `'```json\n' + s + '\n```'`. -/
def fenceWrapTagged (s : List Char) : List Char :=
  ticks ++ jsonTag ++ '\n' :: (s ++ '\n' :: ticks)

/-- `'```\n' + s + '\n```'`. -/
def fenceWrapBare (s : List Char) : List Char :=
  ticks ++ '\n' :: (s ++ '\n' :: ticks)

/-! ### `sampleFramesEvenly` (src/claudeAgent.js lines 28-37)

JS number arithmetic on the stride is modelled exactly over `ℚ`;
`Math.round` rounds half up. -/

/-- `Math.round` for non-negative rationals: `⌊q + 1/2⌋`. -/
def jsRound (q : ℚ) : Int := ⌊q + 1 / 2⌋

/-- `const step = (frames.length - 1) / (maxFrames - 1)`. -/
def sampleStep (n m : Nat) : ℚ := ((n : ℚ) - 1) / ((m : ℚ) - 1)

/-- `Math.min(Math.round(i * step), frames.length - 1)`. -/
def sampleIdx (n m i : Nat) : Nat :=
  min (jsRound ((i : ℚ) * sampleStep n m)).toNat (n - 1)

/-- `sampleFramesEvenly(frames, maxFrames)`: identity when the list already
fits, otherwise the evenly-strided index selection. -/
def sampleFramesEvenly {α : Type} (frames : List α) (maxFrames : Nat) : List α :=
  if frames.length ≤ maxFrames then frames
  else (List.range maxFrames).filterMap
    (fun i => frames.get? (sampleIdx frames.length maxFrames i))

/-- `MAX_FRAMES_PER_TIMELINE_REQUEST` from src/claudeAgent.js. -/
def MAX_FRAMES_PER_TIMELINE_REQUEST : Nat := 20

/-! ### Pipeline data model

Model responses come from a call-indexed oracle: the i-th
`client.messages.create` call of a run returns `respond i`.  Prompt and
image-content construction only shape what is sent to the model and are not
modelled.  `Option Json` models a possibly-`undefined` JavaScript value
(`none` = `undefined`). -/

/-- JavaScript truthiness of a JSON value. -/
def Json.truthy : Json → Bool
  | .null => false
  | .bool b => b
  | .num n => decide (n ≠ 0)
  | .str s => !s.isEmpty
  | .arr _ => true
  | .obj _ => true

/-- Truthiness with `undefined` (falsy). -/
def truthyO : Option Json → Bool
  | none => false
  | some j => j.truthy

/-- JavaScript `a || b`. -/
def jsOr (a b : Option Json) : Option Json := if truthyO a then a else b

/-- Property access `j[k]`: `undefined` for a missing key or a non-object
receiver, a `TypeError` on `null`.  `JSON.parse` keeps the last of duplicate
keys, hence the `getLast?`. -/
def jsGetField (j : Json) (k : List Char) : Except JsErr (Option Json) :=
  match j with
  | .null => .error .typeError
  | .obj fields => .ok (((fields.filter (fun p => p.1 == k)).getLast?).map Prod.snd)
  | _ => .ok none

/-- Property access on a possibly-`undefined` receiver. -/
def jsGetFieldO : Option Json → List Char → Except JsErr (Option Json)
  | none, _ => .error .typeError
  | some j, k => jsGetField j k

/-- Keys of the evaluations `Map`.  JavaScript `Map` compares object keys by
reference; every evaluation processed gets a fresh serial number, which tags
object/array keys to model reference identity (JSON parsing never produces
shared references). -/
inductive JsKey where
  | str (s : List Char)
  | num (n : Int)
  | bool (b : Bool)
  | ref (serial : Nat)
deriving DecidableEq, Repr

/-- Map key for a (truthy) id value. -/
def keyOfJson (j : Json) (serial : Nat) : JsKey :=
  match j with
  | .str s => .str s
  | .num n => .num n
  | .bool b => .bool b
  | .arr _ => .ref serial
  | .obj _ => .ref serial
  | .null => .ref serial

/-- The evaluations `Map` (insertion-ordered association list, unique keys). -/
abbrev EvalMap := List (JsKey × Json)

/-- `Map.prototype.set`: overwrite in place, else append. -/
def mapSet (m : EvalMap) (k : JsKey) (v : Json) : EvalMap :=
  if m.any (fun p => p.1 == k) then m.map (fun p => if p.1 == k then (k, v) else p)
  else m ++ [(k, v)]

/-- The key list of the map. -/
def mapKeys (m : EvalMap) : List JsKey := m.map Prod.fst

/-- `Map.prototype.get`. -/
def mapGet (m : EvalMap) (k : JsKey) : Option Json := (m.find? (fun p => p.1 == k)).map Prod.snd

/-- An input assertion (prompt-only fields such as `testStepId` omitted). -/
structure Assertion where
  id : List Char
  text : List Char

/-- A content block of a model response. -/
inductive Block where
  | text (s : List Char)
  | toolUse (id : List Char) (name : List Char) (input : Option Json)
  | other

/-- `response.content?.find((c) => c.type === 'text')?.text || '{}'`. -/
def extractText (blocks : List Block) : List Char :=
  match blocks.findSome? (fun b => match b with | .text s => some s | _ => none) with
  | some s => if s.isEmpty then [lbrace, rbrace] else s
  | none => [lbrace, rbrace]

/-- Field-name constants. -/
def assertionIdField : List Char := "assertionId".toList

/-- `id`. -/
def idField : List Char := "id".toList

/-- `evaluations`. -/
def evaluationsField : List Char := "evaluations".toList

/-- `timeline`. -/
def timelineField : List Char := "timeline".toList

/-- `error`. -/
def errorField : List Char := "error".toList

/-- The result contract shared by every strategy and the agentic loop. -/
structure PipelineResult where
  timeline : List Json
  evaluations : EvalMap

/-- The shared merge loop
`for (const e of evaluations) { const id = e.assertionId || e.id; if (id) byId.set(id, e); }`.
A thrown `TypeError` (access on a `null` element) stops the loop; the entries
already set survive (`Map` is mutated in place), so the partial map is
returned alongside the error.  `e.id` is only reached when `e` is not `null`,
so evaluating it unconditionally is equivalent to the JS short-circuit. -/
def evalIdStep (e : Json) : Except JsErr (Option Json) :=
  match jsGetField e assertionIdField with
  | .error er => .error er
  | .ok a =>
    match jsGetField e idField with
    | .error er => .error er
    | .ok b => .ok (jsOr a b)

/-- See the doc comment above `evalIdStep`; this is the loop itself. -/
def mergeEvalsP : EvalMap → Nat → List Json → EvalMap × Nat × Option JsErr
  | m, serial, [] => (m, serial, none)
  | m, serial, e :: rest =>
    match evalIdStep e with
    | .error er => (m, serial, some er)
    | .ok (some idv) =>
      if idv.truthy then mergeEvalsP (mapSet m (keyOfJson idv serial) e) (serial + 1) rest
      else mergeEvalsP m (serial + 1) rest
    | .ok none => mergeEvalsP m (serial + 1) rest

/-- `runBatchPipeline` (src/claudeAgent.js 195-224): one call, parse
evaluations, key by the model-supplied id.  `parseJsonFromResponse` and the
property accesses are NOT wrapped in a try/catch here, so their errors
propagate out of the pipeline. -/
def runBatchPipeline (assertions : List Assertion) (respond : Nat → List Block) :
    Except JsErr PipelineResult :=
  let text := extractText (respond 0)
  match parseJsonFromResponse text with
  | .error er => .error er
  | .ok parsed =>
    match jsGetField parsed evaluationsField with
    | .error er => .error er
    | .ok evO =>
      let evaluations := match evO with | some (.arr xs) => xs | _ => []
      match mergeEvalsP [] 0 evaluations with
      | (_, _, some er) => .error er
      | (m, _, none) => .ok { timeline := [], evaluations := m }

/-- `describeTimeline` (src/claudeAgent.js 85-103): first pass, no try/catch. -/
def describeTimeline (resp : List Block) : Except JsErr (List Json) :=
  let text := extractText resp
  match parseJsonFromResponse text with
  | .error er => .error er
  | .ok parsed =>
    match jsGetField parsed timelineField with
    | .error er => .error er
    | .ok tlO => .ok (match tlO with | some (.arr xs) => xs | _ => [])

/-- `evaluateAssertions` (src/claudeAgent.js 108-125): second pass, no
try/catch. -/
def evaluateAssertions (resp : List Block) : Except JsErr (List Json) :=
  let text := extractText resp
  match parseJsonFromResponse text with
  | .error er => .error er
  | .ok parsed =>
    match jsGetField parsed evaluationsField with
    | .error er => .error er
    | .ok evO => .ok (match evO with | some (.arr xs) => xs | _ => [])

/-- `runTwoPassPipeline` (src/claudeAgent.js 271-311). -/
def runTwoPassPipeline (assertions : List Assertion) (respond : Nat → List Block) :
    Except JsErr PipelineResult :=
  match describeTimeline (respond 0) with
  | .error er => .error er
  | .ok timeline =>
    match evaluateAssertions (respond 1) with
    | .error er => .error er
    | .ok evaluations =>
      match mergeEvalsP [] 0 evaluations with
      | (_, _, some er) => .error er
      | (m, _, none) => .ok { timeline := timeline, evaluations := m }

/-- The synthetic fallback evaluation of the `single` strategy. -/
def fallbackEval (id : List Char) : Json :=
  .obj [(assertionIdField, .str id),
        ("verdict".toList, .str "uncertain".toList),
        ("confidence".toList, .num 0),
        ("explanation".toList, .str "No evaluation returned.".toList),
        ("evidence".toList, .arr [])]

/-- The parsed evaluations list of one response, with the try/catch semantics
of the `single` strategy and of the tool backends feeding the agentic loop:
a parse failure or a `TypeError` on `parsed.evaluations` degrades to `[]`,
as does a non-array `evaluations` member. -/
def responseEvals (blocks : List Block) : List Json :=
  match parseJsonFromResponse (extractText blocks) with
  | .error _ => []
  | .ok parsed =>
    match jsGetField parsed evaluationsField with
    | .error _ => []
    | .ok (some (.arr xs)) => xs
    | .ok _ => []

/-- `const id = e.assertionId || e.id || assertion.id` of the single path
(`e` is truthy here, so the field accesses cannot throw). -/
def singleEffId (e : Json) (dflt : List Char) : Json :=
  let x := match jsGetField e assertionIdField with | .ok o => o | .error _ => none
  let y := match jsGetField e idField with | .ok o => o | .error _ => none
  match jsOr (jsOr x y) (some (.str dflt)) with
  | some j => j
  | none => .str dflt

/-- The per-assertion loop of `runSinglePipeline` (src/claudeAgent.js
236-260): one call per assertion (call index `i`), parse failures and the
`parsed.evaluations` access are inside the try/catch and degrade to `[]`. -/
def singleGo (respond : Nat → List Block) :
    List Assertion → Nat → EvalMap → Nat → EvalMap
  | [], _, m, _ => m
  | a :: rest, i, m, serial =>
    match (responseEvals (respond i)).head? with
    | some e =>
      if e.truthy then
        singleGo respond rest (i + 1)
          (mapSet m (keyOfJson (singleEffId e a.id) serial) e) (serial + 1)
      else singleGo respond rest (i + 1) (mapSet m (.str a.id) (fallbackEval a.id)) serial
    | none => singleGo respond rest (i + 1) (mapSet m (.str a.id) (fallbackEval a.id)) serial

/-- `runSinglePipeline` (src/claudeAgent.js 229-266). -/
def runSinglePipeline (assertions : List Assertion) (respond : Nat → List Block) :
    PipelineResult :=
  { timeline := [], evaluations := singleGo respond assertions 0 [] 0 }

/-- `runPipeline` (src/claudeAgent.js 316-325): `opts.strategy || 'two-pass'`
then branch on `'single'` / `'batch'`, anything else runs two-pass. -/
def runPipeline (strategy : Option (List Char)) (assertions : List Assertion)
    (respond : Nat → List Block) : Except JsErr PipelineResult :=
  let strat := match strategy with
    | some s => if s.isEmpty then "two-pass".toList else s
    | none => "two-pass".toList
  if strat = "single".toList then .ok (runSinglePipeline assertions respond)
  else if strat = "batch".toList then runBatchPipeline assertions respond
  else runTwoPassPipeline assertions respond

/-! ### Tool executor and agentic orchestrator loop -/

/-- A model response of the orchestrator loop. -/
structure ModelResponse where
  content : List Block
  stop_reason : List Char

/-- A tool result envelope.  The JS success paths return `{content}` with no
`isError` field; the loop reads `result.isError === true`, so the absent field
behaves as `false`. -/
structure ToolEnvelope where
  content : List Char
  isError : Bool

/-- `err.message` of the embedded runtime errors (the concrete engine text is
modelled by a fixed representative string per error class). -/
def errMessage : JsErr → List Char
  | .malformedOutput => "Unexpected token in JSON".toList
  | .typeError => "Cannot read properties of null".toList

/-- An error envelope `{content: JSON of {error: message}, isError: true}`. -/
def errEnvelope (er : JsErr) : ToolEnvelope :=
  { content := printJson (.obj [(errorField, .str (errMessage er))]), isError := true }

/-- `executeTool` (tools module): dispatch on the tool name; every thrown
error inside the `try` is converted to an error envelope; an unknown name
yields `{error: "Unknown tool: <name>"}`.  Returns the envelope and the next
model-call index (`describe_timeline`/`evaluate_assertions` each consume one
model call; the unknown-tool path consumes none). -/
def executeTool (toolName : List Char) (toolInput : Option Json)
    (assertions : List Assertion) (respond : Nat → List Block) (callIdx : Nat) :
    ToolEnvelope × Nat :=
  if toolName = "describe_timeline".toList then
    match describeTimeline (respond callIdx) with
    | .ok tl =>
      ({ content := printJson (.obj [(timelineField, .arr tl)]), isError := false }, callIdx + 1)
    | .error er => (errEnvelope er, callIdx + 1)
  else if toolName = "evaluate_assertions".toList then
    match jsGetFieldO toolInput timelineField with
    | .error er => (errEnvelope er, callIdx)
    | .ok _ =>
      match evaluateAssertions (respond callIdx) with
      | .ok evals =>
        ({ content := printJson (.obj [(evaluationsField, .arr evals)]), isError := false },
          callIdx + 1)
      | .error er => (errEnvelope er, callIdx + 1)
  else
    ({ content := printJson (.obj [(errorField, .str ("Unknown tool: ".toList ++ toolName))]),
       isError := true }, callIdx)

/-- Mutable state threaded through one agentic turn. -/
structure LoopState where
  timeline : List Json
  evals : EvalMap
  serial : Nat
  callIdx : Nat

/-- Processing of one content block inside the agentic turn (part_000 lines
61-94): only `tool_use` blocks are executed; a successful `describe_timeline`
result REPLACES the running timeline (overwrite, not append); a successful
`evaluate_assertions` result merges by id with overwrite; the `JSON.parse` of
the tool result content and the subsequent accesses sit inside `try { } catch
(_) {}`, so their errors leave the accumulators as they are (a `TypeError`
mid-merge keeps the entries already set). -/
def processBlock (assertions : List Assertion) (respond : Nat → List Block)
    (st : LoopState) (b : Block) : LoopState :=
  match b with
  | .toolUse _ name input =>
    let ti : Option Json := match input with
      | some j => if j.truthy then some j else some (.obj [])
      | none => some (.obj [])
    let er := executeTool name ti assertions respond st.callIdx
    let result := er.1
    let st := { st with callIdx := er.2 }
    if name = "describe_timeline".toList && !result.isError then
      match jsonParse result.content with
      | some parsed =>
        match jsGetField parsed timelineField with
        | .ok (some (.arr xs)) => { st with timeline := xs }
        | _ => st
      | none => st
    else if name = "evaluate_assertions".toList && !result.isError then
      match jsonParse result.content with
      | some parsed =>
        match jsGetField parsed evaluationsField with
        | .error _ => st
        | .ok evO =>
          let list := match evO with | some (.arr xs) => xs | _ => []
          let mr := mergeEvalsP st.evals st.serial list
          { st with evals := mr.1, serial := mr.2.1 }
      | none => st
    else st
  | _ => st

/-- `MAX_AGENT_TURNS` (part_000 line 9). -/
def MAX_AGENT_TURNS : Nat := 10

/-- The loop result, instrumented with the number of turns entered and the
next unconsumed model-call index. -/
structure AgenticResult where
  timeline : List Json
  evaluations : EvalMap
  turns : Nat
  nextCall : Nat

/-- The agentic turn loop (part_000 lines 35-101): consume one orchestrator
response per turn; a `stop_reason` other than `tool_use` breaks immediately;
otherwise execute the tool blocks and continue; fuel exhaustion returns
whatever was harvested. -/
def agenticGo (assertions : List Assertion) (respond : Nat → ModelResponse) :
    Nat → LoopState → AgenticResult
  | 0, st =>
    { timeline := st.timeline, evaluations := st.evals, turns := 0, nextCall := st.callIdx }
  | fuel + 1, st =>
    let r := respond st.callIdx
    let st1 : LoopState := { st with callIdx := st.callIdx + 1 }
    if r.stop_reason ≠ "tool_use".toList then
      { timeline := st1.timeline, evaluations := st1.evals, turns := 1, nextCall := st1.callIdx }
    else
      let st2 := r.content.foldl (processBlock assertions (fun n => (respond n).content)) st1
      let res := agenticGo assertions respond fuel st2
      { res with turns := res.turns + 1 }

/-- `runAgenticPipeline` with turn instrumentation. -/
def runAgenticStats (assertions : List Assertion) (respond : Nat → ModelResponse) :
    AgenticResult :=
  agenticGo assertions respond MAX_AGENT_TURNS
    { timeline := [], evals := [], serial := 0, callIdx := 0 }

/-- `runAgenticPipeline` (part_000 lines 24-107): returns
`{timeline, evaluations}`. -/
def runAgenticPipeline (assertions : List Assertion) (respond : Nat → ModelResponse) :
    List Json × EvalMap :=
  ((runAgenticStats assertions respond).timeline,
   (runAgenticStats assertions respond).evaluations)

/-! ### Characterization of the single-strategy loop -/

/-- Whether the single strategy falls back for a response: parse failure
(empty `responseEvals`), an empty evaluations array, or a falsy first
element. -/
def fallbackTriggered (blocks : List Block) : Bool :=
  match (responseEvals blocks).head? with
  | some e => !e.truthy
  | none => true

/-- The value the single loop stores for one assertion. -/
def singleEntryVal (a : Assertion) (blocks : List Block) : Json :=
  match (responseEvals blocks).head? with
  | some e => if e.truthy then e else fallbackEval a.id
  | none => fallbackEval a.id

/-- The entries the single loop appends, in order, when the model is honest
about ids. -/
def singleEntries (respond : Nat → List Block) : List Assertion → Nat → EvalMap
  | [], _ => []
  | a :: rest, i =>
    (JsKey.str a.id, singleEntryVal a (respond i)) :: singleEntries respond rest (i + 1)

/-- The honest-model condition: any truthy effective id carried by an
evaluation is the string of one of the given ids. -/
def honestEvals (ids : List (List Char)) (e : Json) : Prop :=
  ∀ idv, evalIdStep e = .ok (some idv) → idv.truthy = true → ∃ id ∈ ids, idv = Json.str id

/-! ### Concrete fixtures: one assertion and several canned model responses -/

/-- One input assertion with id `a1`. -/
def a1 : Assertion := ⟨"a1".toList, "t".toList⟩

/-- A model response whose one evaluation carries the invented id `bogus`. -/
def inventedIdResponse : Nat → List Block := fun _ =>
  [Block.text (printJson (.obj [(evaluationsField,
     .arr [.obj [(assertionIdField, .str "bogus".toList)]])]))]

/-- A model response whose text is not JSON. -/
def nonJsonResponse : Nat → List Block := fun _ => [Block.text ['x']]

/-- A model response carrying a one-moment timeline. -/
def timelineResponse : Nat → List Block := fun _ =>
  [Block.text (printJson (.obj [(timelineField, .arr [Json.num 1])]))]

/-- A model response with no content blocks (the text defaults to an empty
object literal). -/
def emptyResponse : Nat → List Block := fun _ => []

/-- An orchestrator response that ends the agentic loop at once. -/
def endTurnResponse : Nat → ModelResponse := fun _ => ⟨[], "end_turn".toList⟩

/-- A JSON string value whose serialization contains a triple backtick. -/
def tickyJson : Json := .str ['a', btick, btick, btick, 'b']

/-! ### Round trip of the printer through the parser -/

theorem digitVal_digitChar {d : Nat} (h : d < 10) : digitVal (digitChar d) = d := by
  interval_cases d <;> decide

theorem isDigitCh_digitChar {d : Nat} (h : d < 10) : isDigitCh (digitChar d) = true := by
  interval_cases d <;> decide

theorem digitChar_eq_zero_iff {d : Nat} (h : d < 10) : digitChar d = '0' ↔ d = 0 := by
  interval_cases d <;> simp <;> decide

theorem hexVal_hexChar {d : Nat} (h : d < 16) : hexVal (hexChar d) = some d := by
  interval_cases d <;> decide

theorem natDigitsAux_irrel : ∀ n fuel₁ fuel₂, n < fuel₁ → n < fuel₂ →
    natDigitsAux fuel₁ n = natDigitsAux fuel₂ n := by
  intro n
  induction n using Nat.strong_induction_on with
  | _ n ih =>
    intro fuel₁ fuel₂ h₁ h₂
    cases fuel₁ with
    | zero => omega
    | succ f₁ =>
      cases fuel₂ with
      | zero => omega
      | succ f₂ =>
        simp only [natDigitsAux]
        split
        · rfl
        · next h10 =>
          rw [ih (n / 10) (Nat.div_lt_self (by omega) (by omega)) f₁ f₂ (by omega) (by omega)]

/-- The defining recurrence of `natDigits`. -/
theorem natDigits_eq (n : Nat) :
    natDigits n = if n < 10 then [digitChar n] else natDigits (n / 10) ++ [digitChar (n % 10)] := by
  show natDigitsAux (n + 1) n = _
  simp only [natDigitsAux]
  split
  · rfl
  · next h10 =>
    rw [natDigitsAux_irrel (n / 10) n (n / 10 + 1) (by omega) (by omega)]
    rfl

theorem natDigits_ne_nil (n : Nat) : natDigits n ≠ [] := by
  rw [natDigits_eq]
  split <;> simp

theorem natDigits_all_digits (n : Nat) : ∀ c ∈ natDigits n, isDigitCh c = true := by
  induction n using Nat.strong_induction_on with
  | _ n ih =>
    rw [natDigits_eq]
    split
    · next h => simpa using isDigitCh_digitChar h
    · next h =>
      intro c hc
      rcases List.mem_append.mp hc with h1 | h2
      · exact ih (n / 10) (Nat.div_lt_self (by omega) (by omega)) c h1
      · simp only [List.mem_singleton] at h2
        subst h2
        exact isDigitCh_digitChar (Nat.mod_lt _ (by omega))

theorem readNat_natDigits (n : Nat) : readNat (natDigits n) = n := by
  induction n using Nat.strong_induction_on with
  | _ n ih =>
    rw [natDigits_eq]
    split
    · next h => simp [readNat, digitVal_digitChar h]
    · next h =>
      have := ih (n / 10) (Nat.div_lt_self (by omega) (by omega))
      simp only [readNat, List.foldl_append, List.foldl_cons, List.foldl_nil] at this ⊢
      rw [this, digitVal_digitChar (Nat.mod_lt _ (by omega))]
      omega

theorem natDigits_head_ne_zero {n : Nat} (h : n ≠ 0) : (natDigits n).head? ≠ some '0' := by
  induction n using Nat.strong_induction_on with
  | _ n ih =>
    rw [natDigits_eq]
    split
    · next h10 =>
      intro hc
      simp only [List.head?_cons] at hc
      exact h ((digitChar_eq_zero_iff h10).mp (Option.some.inj hc))
    · next h10 =>
      have hne := natDigits_ne_nil (n / 10)
      have hh := ih (n / 10) (Nat.div_lt_self (by omega) (by omega)) (by omega)
      cases hd : natDigits (n / 10) with
      | nil => exact absurd hd hne
      | cons a l => rw [hd] at hh; simpa using hh

theorem takeWhile_all_append (p : Char → Bool) (xs ys : List Char)
    (h : ∀ c ∈ xs, p c = true) : (xs ++ ys).takeWhile p = xs ++ ys.takeWhile p := by
  induction xs with
  | nil => simp
  | cons a l ih =>
    have hpa : p a = true := h a (List.mem_cons_self a l)
    simp only [List.cons_append, List.takeWhile_cons, hpa, if_true]
    rw [ih (fun c hc => h c (List.mem_cons_of_mem a hc))]

theorem dropWhile_all_append (p : Char → Bool) (xs ys : List Char)
    (h : ∀ c ∈ xs, p c = true) : (xs ++ ys).dropWhile p = ys.dropWhile p := by
  induction xs with
  | nil => simp
  | cons a l ih =>
    have ha : p a = true := h a (by simp)
    simp only [List.cons_append, List.dropWhile_cons, ha, if_true]
    exact ih (fun c hc => h c (by simp [hc]))

theorem parseNat_natDigits (n : Nat) (rest : List Char) (hr : noDigitStart rest = true) :
    parseNat (natDigits n ++ rest) = some (n, rest) := by
  have htw : rest.takeWhile isDigitCh = [] := by
    cases rest with
    | nil => simp
    | cons c l => simp only [noDigitStart, Bool.not_eq_true'] at hr; simp [List.takeWhile_cons, hr]
  have hdw : rest.dropWhile isDigitCh = rest := by
    cases rest with
    | nil => simp
    | cons c l => simp only [noDigitStart, Bool.not_eq_true'] at hr; simp [List.dropWhile_cons, hr]
  simp only [parseNat]
  rw [takeWhile_all_append _ _ _ (natDigits_all_digits n),
      dropWhile_all_append _ _ _ (natDigits_all_digits n), htw, hdw, List.append_nil]
  have hne := natDigits_ne_nil n
  have hcond : ((natDigits n).head? == some '0' && (natDigits n).length != 1) = false := by
    by_cases h0 : n = 0
    · subst h0
      have h00 : natDigits 0 = ['0'] := by rw [natDigits_eq]; decide
      rw [h00]
      decide
    · have hh := natDigits_head_ne_zero h0
      have : ((natDigits n).head? == some '0') = false := beq_eq_false_iff_ne.mpr hh
      simp [this]
  cases hd : natDigits n with
  | nil => exact absurd hd hne
  | cons a l =>
    rw [← hd, readNat_natDigits]
    rw [hd] at hcond ⊢
    simp only [List.isEmpty_cons, Bool.false_eq_true, if_false, hcond]

theorem parseStringBody_escape (s rest : List Char) :
    parseStringBody (escapeString s ++ '"' :: rest) = some (s, rest) := by
  induction s with
  | nil =>
    rw [show escapeString [] = [] from rfl, List.nil_append, parseStringBody.eq_def]
    simp
  | cons c s ih =>
    have hes : escapeString (c :: s) = escapeChar c ++ escapeString s := by
      simp [escapeString]
    rw [hes, List.append_assoc]
    by_cases h1 : c = '"'
    · subst h1
      rw [show escapeChar '"' = ['\\', '"'] from rfl, List.cons_append, List.cons_append,
        parseStringBody.eq_def]
      simp [escCode, ih]
    by_cases h2 : c = '\\'
    · subst h2
      rw [show escapeChar '\\' = ['\\', '\\'] from rfl, List.cons_append, List.cons_append,
        parseStringBody.eq_def]
      simp [escCode, ih]
    by_cases h3 : c = Char.ofNat 8
    · subst h3
      rw [show escapeChar (Char.ofNat 8) = ['\\', 'b'] from rfl, List.cons_append,
        List.cons_append, parseStringBody.eq_def]
      simp [escCode, ih]
    by_cases h4 : c = Char.ofNat 12
    · subst h4
      rw [show escapeChar (Char.ofNat 12) = ['\\', 'f'] from rfl, List.cons_append,
        List.cons_append, parseStringBody.eq_def]
      simp [escCode, ih]
    by_cases h5 : c = '\n'
    · subst h5
      rw [show escapeChar '\n' = ['\\', 'n'] from rfl, List.cons_append, List.cons_append,
        parseStringBody.eq_def]
      simp [escCode, ih]
    by_cases h6 : c = '\r'
    · subst h6
      rw [show escapeChar '\r' = ['\\', 'r'] from rfl, List.cons_append, List.cons_append,
        parseStringBody.eq_def]
      simp [escCode, ih]
    by_cases h7 : c = '\t'
    · subst h7
      rw [show escapeChar '\t' = ['\\', 't'] from rfl, List.cons_append, List.cons_append,
        parseStringBody.eq_def]
      simp [escCode, ih]
    by_cases h8 : c.toNat < 32
    · have e1 : escapeChar c =
          ['\\', 'u', '0', '0', hexChar (c.toNat / 16), hexChar (c.toNat % 16)] := by
        rw [escapeChar]
        simp [h1, h2, h3, h4, h5, h6, h7, h8]
      rw [e1]
      have hx0 : hexVal '0' = some 0 := rfl
      have hx1 : hexVal (hexChar (c.toNat / 16)) = some (c.toNat / 16) :=
        hexVal_hexChar (by omega)
      have hx2 : hexVal (hexChar (c.toNat % 16)) = some (c.toNat % 16) :=
        hexVal_hexChar (by omega)
      have hval : c.toNat / 16 * 16 + c.toNat % 16 = c.toNat := by omega
      simp only [List.cons_append]
      rw [parseStringBody.eq_def]
      simp only [hx0, hx1, hx2]
      simp [ih, hval, Char.ofNat_toNat]
    · have e1 : escapeChar c = [c] := by
        rw [escapeChar]
        simp [h1, h2, h3, h4, h5, h6, h7, h8]
      rw [e1, List.cons_append, parseStringBody.eq_def]
      simp [h1, h2, h8, ih]

theorem sizeJson_pos (v : Json) : 1 ≤ sizeJson v := by
  cases v <;> simp [sizeJson]

theorem jfuel_pos (v : Json) : 1 ≤ jfuel v := by
  cases v <;> simp [jfuel]

theorem sizeJson_lt_of_mem_elems {e : Json} {es : List Json} (h : e ∈ es) :
    sizeJson e < sizeElems es := by
  induction es with
  | nil => cases h
  | cons x rest ih =>
    rcases List.mem_cons.mp h with rfl | h2
    · simp [sizeElems]; omega
    · have := ih h2
      simp [sizeElems]; omega

theorem sizeJson_lt_of_mem_members {p : List Char × Json} {fs : List (List Char × Json)}
    (h : p ∈ fs) : sizeJson p.2 < sizeMembers fs := by
  induction fs with
  | nil => cases h
  | cons q rest ih =>
    rcases List.mem_cons.mp h with rfl | h2
    · cases p; simp [sizeMembers]; omega
    · have := ih h2
      cases q; simp [sizeMembers]; omega

theorem jfuelElems_le_of (xs : List Json)
    (H : ∀ e ∈ xs, jfuel e ≤ (printJson e).length) :
    jfuelElems xs ≤ (printElems xs).length + 1 := by
  induction xs with
  | nil => simp [jfuelElems]
  | cons x rest ih =>
    have hx := H x (by simp)
    cases rest with
    | nil => simp [jfuelElems, printElems]; omega
    | cons y r =>
      have hr := ih (fun e he => H e (by simp [he]))
      simp only [jfuelElems, printElems, List.length_append, List.length_cons] at hr ⊢
      omega

theorem jfuelMembers_le_of (fs : List (List Char × Json))
    (H : ∀ p ∈ fs, jfuel p.2 ≤ (printJson p.2).length) :
    jfuelMembers fs ≤ (printMembers fs).length + 1 := by
  induction fs with
  | nil => simp [jfuelMembers]
  | cons q rest ih =>
    obtain ⟨k, v⟩ := q
    have hv : jfuel v ≤ (printJson v).length := H (k, v) (by simp)
    cases rest with
    | nil => simp [jfuelMembers, printMembers]; omega
    | cons q2 r =>
      have hr := ih (fun p hp => H p (by simp [hp]))
      cases q2
      simp only [jfuelMembers, printMembers, List.length_append, List.length_cons] at hr ⊢
      omega

theorem jfuel_le_aux : ∀ n : Nat, ∀ v : Json, sizeJson v ≤ n →
    jfuel v ≤ (printJson v).length := by
  intro n
  induction n with
  | zero => intro v h; have := sizeJson_pos v; omega
  | succ n ihn =>
    intro v hv
    cases v with
    | null => simp [jfuel, printJson]
    | bool b => cases b <;> simp [jfuel, printJson]
    | num k =>
      have h1 : (printJson (.num k)).length ≥ 1 := by
        have : printJson (.num k) ≠ [] := by
          show intDigits k ≠ []
          unfold intDigits
          split
          · simp
          · exact natDigits_ne_nil _
        cases hpk : printJson (.num k) with
        | nil => exact absurd hpk this
        | cons a l => simp
      simpa [jfuel] using h1
    | str s => simp [jfuel, printJson]
    | arr xs =>
      have hsz : sizeElems xs ≤ n := by simp [sizeJson] at hv; omega
      have H : ∀ e ∈ xs, jfuel e ≤ (printJson e).length := by
        intro e he
        exact ihn e (by have := sizeJson_lt_of_mem_elems he; omega)
      have := jfuelElems_le_of xs H
      simp only [jfuel, printJson, List.length_cons, List.length_append, List.length_singleton]
      omega
    | obj fs =>
      have hsz : sizeMembers fs ≤ n := by simp [sizeJson] at hv; omega
      have H : ∀ p ∈ fs, jfuel p.2 ≤ (printJson p.2).length := by
        intro p hp
        exact ihn p.2 (by have := sizeJson_lt_of_mem_members hp; omega)
      have := jfuelMembers_le_of fs H
      simp only [jfuel, printJson, List.length_cons, List.length_append, List.length_singleton]
      omega

/-- The fuel `jsonParse` supplies is always enough for a printed value. -/
theorem jfuel_le (v : Json) : jfuel v ≤ (printJson v).length :=
  jfuel_le_aux (sizeJson v) v le_rfl

theorem skipWs_cons {c : Char} (cs : List Char) (h : isJsonWs c = false) :
    skipWs (c :: cs) = c :: cs := by
  simp [skipWs, List.dropWhile_cons, h]

theorem digit_facts {c : Char} (h : isDigitCh c = true) :
    isJsonWs c = false ∧ c ≠ 'n' ∧ c ≠ 't' ∧ c ≠ 'f' ∧ c ≠ '"' ∧ c ≠ '[' ∧ c ≠ lbrace ∧
      c ≠ '-' ∧ c ≠ ']' ∧ c ≠ rbrace := by
  simp only [isDigitCh, Bool.and_eq_true, decide_eq_true_eq] at h
  refine ⟨?_, ?_, ?_, ?_, ?_, ?_, ?_, ?_, ?_, ?_⟩
  · simp only [isJsonWs, Bool.or_eq_false_iff, decide_eq_false_iff_not]
    refine ⟨⟨⟨?_, ?_⟩, ?_⟩, ?_⟩ <;> (intro hc; subst hc; exact absurd h (by decide))
  all_goals (intro hc; subst hc; exact absurd h (by decide))

theorem printJson_head_ok (v : Json) :
    ∃ c t, printJson v = c :: t ∧ isJsonWs c = false ∧ c ≠ ']' ∧ c ≠ rbrace := by
  cases v with
  | null => exact ⟨'n', ['u', 'l', 'l'], by simp [printJson], by decide, by decide, by decide⟩
  | bool b =>
    cases b
    · exact ⟨'f', ['a', 'l', 's', 'e'], by simp [printJson], by decide, by decide, by decide⟩
    · exact ⟨'t', ['r', 'u', 'e'], by simp [printJson], by decide, by decide, by decide⟩
  | num k =>
    by_cases hk : k < 0
    · exact ⟨'-', natDigits k.natAbs, by simp [printJson, intDigits, hk], by decide, by decide,
        by decide⟩
    · have hpr : printJson (.num k) = natDigits k.toNat := by simp [printJson, intDigits, hk]
      cases hd : natDigits k.toNat with
      | nil => exact absurd hd (natDigits_ne_nil _)
      | cons a l =>
        have ha : isDigitCh a = true := natDigits_all_digits _ a (by rw [hd]; simp)
        obtain ⟨hws, -, -, -, -, -, -, -, hb1, hb2⟩ := digit_facts ha
        exact ⟨a, l, by rw [hpr, hd], hws, hb1, hb2⟩
  | str s => exact ⟨'"', escapeString s ++ ['"'], by simp [printJson], by decide, by decide,
      by decide⟩
  | arr xs => exact ⟨'[', printElems xs ++ [']'], by simp [printJson], by decide, by decide,
      by decide⟩
  | obj fs => exact ⟨lbrace, printMembers fs ++ [rbrace], by simp [printJson], by decide,
      by decide, by decide⟩

theorem parseElems_print (es : List Json)
    (H : ∀ e ∈ es, ∀ fuel rest, jfuel e ≤ fuel → noDigitStart rest = true →
        parseValue fuel (printJson e ++ rest) = some (e, rest)) :
    ∀ fuel rest, jfuelElems es ≤ fuel → es ≠ [] →
    parseElems fuel (printElems es ++ ']' :: rest) = some (es, rest) := by
  induction es with
  | nil => intro fuel rest _ hne; exact absurd rfl hne
  | cons x xs ih =>
    intro fuel rest hfuel _
    have hfx : 1 + jfuel x + jfuelElems xs ≤ fuel := by simpa [jfuelElems] using hfuel
    obtain ⟨f, rfl⟩ : ∃ f, fuel = f + 1 := ⟨fuel - 1, by omega⟩
    rw [parseElems.eq_def]
    cases xs with
    | nil =>
      have hx := H x (by simp) f (']' :: rest) (by omega) rfl
      simp only [printElems, hx]
      rw [skipWs_cons _ (by decide)]
      simp
    | cons y r =>
      have hx := H x (by simp) f (',' :: (printElems (y :: r) ++ ']' :: rest)) (by omega) rfl
      have hih := ih (fun e he fuel rest h1 h2 => H e (by simp [he]) fuel rest h1 h2)
        f rest (by omega) (by simp)
      simp only [printElems, List.append_assoc, List.cons_append, hx]
      rw [skipWs_cons _ (by decide)]
      simp [hih]

theorem parseMembers_print (fs : List (List Char × Json))
    (H : ∀ p ∈ fs, ∀ fuel rest, jfuel p.2 ≤ fuel → noDigitStart rest = true →
        parseValue fuel (printJson p.2 ++ rest) = some (p.2, rest)) :
    ∀ fuel rest, jfuelMembers fs ≤ fuel → fs ≠ [] →
    parseMembers fuel (printMembers fs ++ rbrace :: rest) = some (fs, rest) := by
  induction fs with
  | nil => intro fuel rest _ hne; exact absurd rfl hne
  | cons q fs' ih =>
    obtain ⟨k, v⟩ := q
    intro fuel rest hfuel _
    have hfx : 1 + jfuel v + jfuelMembers fs' ≤ fuel := by simpa [jfuelMembers] using hfuel
    obtain ⟨f, rfl⟩ : ∃ f, fuel = f + 1 := ⟨fuel - 1, by omega⟩
    rw [parseMembers.eq_def]
    have hcomma : ¬ (rbrace = ',') := by decide
    cases fs' with
    | nil =>
      have hv : parseValue f (printJson v ++ rbrace :: rest) = some (v, rbrace :: rest) :=
        H (k, v) (by simp) f (rbrace :: rest) (by show jfuel v ≤ f; omega) rfl
      have hsb : parseStringBody (escapeString k ++ '"' :: ':' :: (printJson v ++ rbrace :: rest))
          = some (k, ':' :: (printJson v ++ rbrace :: rest)) := parseStringBody_escape _ _
      simp only [printMembers, List.cons_append, List.append_assoc]
      rw [skipWs_cons _ (by decide)]
      simp [hsb, hv, hcomma, skipWs_cons _ (by decide : isJsonWs ':' = false),
        skipWs_cons _ (by decide : isJsonWs rbrace = false)]
    | cons q2 r =>
      have hv : parseValue f (printJson v ++ ',' :: (printMembers (q2 :: r) ++ rbrace :: rest))
          = some (v, ',' :: (printMembers (q2 :: r) ++ rbrace :: rest)) :=
        H (k, v) (by simp) f _ (by show jfuel v ≤ f; omega) rfl
      have hih := ih (fun p hp fuel rest h1 h2 => H p (by simp [hp]) fuel rest h1 h2)
        f rest (by omega) (by simp)
      have hsb : parseStringBody (escapeString k ++ '"' :: ':' ::
            (printJson v ++ ',' :: (printMembers (q2 :: r) ++ rbrace :: rest)))
          = some (k, ':' :: (printJson v ++ ',' :: (printMembers (q2 :: r) ++ rbrace :: rest))) :=
        parseStringBody_escape _ _
      simp only [printMembers, List.cons_append, List.append_assoc]
      rw [skipWs_cons _ (by decide)]
      simp [hsb, hv, hih, skipWs_cons _ (by decide : isJsonWs ':' = false),
        skipWs_cons _ (by decide : isJsonWs ',' = false)]

theorem parseValue_print_aux : ∀ n : Nat, ∀ v : Json, sizeJson v ≤ n →
    ∀ fuel rest, jfuel v ≤ fuel → noDigitStart rest = true →
    parseValue fuel (printJson v ++ rest) = some (v, rest) := by
  intro n
  induction n using Nat.strong_induction_on with
  | _ n ihn =>
    intro v hsz fuel rest hfuel hnd
    obtain ⟨f, rfl⟩ : ∃ f, fuel = f + 1 := ⟨fuel - 1, by have := jfuel_pos v; omega⟩
    rw [parseValue.eq_def]
    cases v with
    | null =>
      simp only [printJson, List.cons_append, List.nil_append]
      rw [skipWs_cons _ (by decide)]
      simp
    | bool b =>
      cases b with
      | true =>
        simp only [printJson, List.cons_append, List.nil_append]
        rw [skipWs_cons _ (by decide)]
        simp
      | false =>
        simp only [printJson, List.cons_append, List.nil_append]
        rw [skipWs_cons _ (by decide)]
        simp
    | num k =>
      by_cases hk : k < 0
      · have hpr : printJson (.num k) = '-' :: natDigits k.natAbs := by
          simp [printJson, intDigits, hk]
        have hpn := parseNat_natDigits k.natAbs rest hnd
        rw [hpr, List.cons_append]
        simp only [skipWs_cons (natDigits k.natAbs ++ rest) (by decide : isJsonWs '-' = false)]
        simp [hpn, show ¬ ('-' = lbrace) by decide, abs_of_neg hk]
      · have hpr : printJson (.num k) = natDigits k.toNat := by
          simp [printJson, intDigits, hk]
        rw [hpr]
        cases hd : natDigits k.toNat with
        | nil => exact absurd hd (natDigits_ne_nil _)
        | cons a l =>
          have ha : isDigitCh a = true := natDigits_all_digits _ a (by rw [hd]; simp)
          obtain ⟨hws, hn, ht, hf2, hq, hbr, hlb, hm, -, -⟩ := digit_facts ha
          have hpn : parseNat (a :: (l ++ rest)) = some (k.toNat, rest) := by
            rw [show a :: (l ++ rest) = (a :: l) ++ rest by simp, ← hd]
            exact parseNat_natDigits k.toNat rest hnd
          rw [List.cons_append]
          simp only [skipWs_cons (l ++ rest) hws]
          simp [hn, ht, hf2, hq, hbr, hlb, hm, ha, hpn,
            Int.toNat_of_nonneg (by omega : (0:Int) ≤ k)]
    | str s =>
      have hsb : parseStringBody (escapeString s ++ '"' :: rest) = some (s, rest) :=
        parseStringBody_escape _ _
      simp only [printJson, List.cons_append, List.append_assoc, List.singleton_append]
      rw [skipWs_cons _ (by decide)]
      simp [hsb]
    | arr xs =>
      cases xs with
      | nil =>
        simp only [printJson, printElems, List.cons_append, List.nil_append]
        rw [skipWs_cons _ (by decide : isJsonWs '[' = false)]
        simp [skipWs_cons rest (by decide : isJsonWs ']' = false)]
      | cons x xs' =>
        have H : ∀ e ∈ x :: xs', ∀ fuel rest, jfuel e ≤ fuel → noDigitStart rest = true →
            parseValue fuel (printJson e ++ rest) = some (e, rest) := by
          intro e he fuel rest h1 h2
          refine ihn (sizeJson e) ?_ e le_rfl fuel rest h1 h2
          have := sizeJson_lt_of_mem_elems he
          simp only [sizeJson] at hsz
          omega
        have hfe : jfuelElems (x :: xs') ≤ f := by
          simp only [jfuel] at hfuel
          omega
        have hpe := parseElems_print (x :: xs') H f rest hfe (by simp)
        obtain ⟨c0, t0, heq0, hws0, hne0, -⟩ := printJson_head_ok x
        obtain ⟨t1, hpe1⟩ : ∃ t1, printElems (x :: xs') = c0 :: t1 := by
          cases xs' <;> simp [printElems, heq0]
        rw [hpe1, List.cons_append] at hpe
        simp only [printJson, List.cons_append, List.append_assoc, List.singleton_append,
          List.nil_append, hpe1]
        rw [skipWs_cons _ (by decide : isJsonWs '[' = false)]
        simp [skipWs_cons, hws0, hne0, hpe]
    | obj fs =>
      cases fs with
      | nil =>
        simp only [printJson, printMembers, List.cons_append, List.nil_append]
        rw [skipWs_cons _ (by decide : isJsonWs lbrace = false)]
        simp [skipWs_cons rest (by decide : isJsonWs rbrace = false),
          show ¬ (lbrace = 'n') by decide, show ¬ (lbrace = 't') by decide,
          show ¬ (lbrace = 'f') by decide, show ¬ (lbrace = '"') by decide,
          show ¬ (lbrace = '[') by decide]
      | cons q fs' =>
        have H : ∀ p ∈ q :: fs', ∀ fuel rest, jfuel p.2 ≤ fuel → noDigitStart rest = true →
            parseValue fuel (printJson p.2 ++ rest) = some (p.2, rest) := by
          intro p hp fuel rest h1 h2
          refine ihn (sizeJson p.2) ?_ p.2 le_rfl fuel rest h1 h2
          have := sizeJson_lt_of_mem_members hp
          simp only [sizeJson] at hsz
          omega
        have hfm : jfuelMembers (q :: fs') ≤ f := by
          simp only [jfuel] at hfuel
          omega
        have hpm := parseMembers_print (q :: fs') H f rest hfm (by simp)
        obtain ⟨k, v⟩ := q
        obtain ⟨t1, hpm1⟩ : ∃ t1, printMembers ((k, v) :: fs') = '"' :: t1 := by
          cases fs' <;> simp [printMembers]
        rw [hpm1, List.cons_append] at hpm
        simp only [printJson, List.cons_append, List.append_assoc, List.singleton_append,
          List.nil_append, hpm1]
        rw [skipWs_cons _ (by decide : isJsonWs lbrace = false)]
        simp [skipWs_cons, hpm, show isJsonWs '"' = false by decide,
          show ¬ (lbrace = 'n') by decide, show ¬ (lbrace = 't') by decide,
          show ¬ (lbrace = 'f') by decide, show ¬ (lbrace = '"') by decide,
          show ¬ (lbrace = '[') by decide, show ¬ ('"' = rbrace) by decide]

/-- Round trip: printing then parsing returns the original JSON value. -/
theorem jsonParse_print (v : Json) : jsonParse (printJson v) = some v := by
  have h := parseValue_print_aux (sizeJson v) v le_rfl ((printJson v).length + 1) []
    (by have := jfuel_le v; omega) rfl
  rw [List.append_nil] at h
  unfold jsonParse
  rw [h]
  simp [skipWs]

theorem findFence_eq_none {cs : List Char} (h : hasTicks cs = false) :
    findFence cs = none := by
  induction cs with
  | nil => rfl
  | cons c rest ih =>
    simp only [hasTicks, Bool.or_eq_false_iff] at h
    rw [findFence, tryFenceAt]
    rw [h.1]
    simp [ih h.2]

theorem isPrefixOf_ticks_append_single {xs : List Char} {c : Char} (hc : c ≠ btick) :
    ticks.isPrefixOf (xs ++ [c]) = ticks.isPrefixOf xs := by
  have hb : (btick == c) = false := by
    simp only [beq_eq_false_iff_ne, ne_eq]
    exact fun h => hc h.symm
  match xs with
  | [] => simp [ticks, List.isPrefixOf, hb]
  | [x] => simp [ticks, List.isPrefixOf, hb]
  | [x, y] => simp [ticks, List.isPrefixOf, hb]
  | x :: y :: z :: rest => simp [ticks, List.isPrefixOf]

theorem hasTicks_append_single {s : List Char} {c : Char} (hc : c ≠ btick) :
    hasTicks (s ++ [c]) = hasTicks s := by
  induction s with
  | nil =>
    simp [hasTicks, ticks, List.isPrefixOf, show (btick == c) = false by
      simp only [beq_eq_false_iff_ne, ne_eq]; exact fun h => hc h.symm]
  | cons a rest ih =>
    rw [List.cons_append, hasTicks, hasTicks, ih,
      show a :: (rest ++ [c]) = (a :: rest) ++ [c] from rfl,
      isPrefixOf_ticks_append_single hc]

theorem splitAtTicks_exact {p q : List Char} (hp : hasTicks p = false)
    (hlast : p.getLast? ≠ some btick) :
    splitAtTicks (p ++ ticks ++ q) = some (p, q) := by
  induction p with
  | nil =>
    rw [List.nil_append, splitAtTicks.eq_def]
    cases q with
    | nil => simp [ticks, List.isPrefixOf]
    | cons d r => simp [ticks, List.isPrefixOf]
  | cons c p' ih =>
    have hnp : ticks.isPrefixOf (c :: (p' ++ ticks ++ q)) = false := by
      cases p' with
      | nil =>
        simp only [List.getLast?_singleton, ne_eq, Option.some.injEq] at hlast
        simp [ticks, List.isPrefixOf, show (btick == c) = false by
          simp only [beq_eq_false_iff_ne, ne_eq]; exact fun h => hlast h.symm]
      | cons d p'' =>
        cases p'' with
        | nil =>
          have : d ≠ btick := by
            simpa [List.getLast?] using hlast
          simp [ticks, List.isPrefixOf, show (btick == d) = false by
            simp only [beq_eq_false_iff_ne, ne_eq]; exact fun h => this h.symm]
        | cons e p''' =>
          simp only [hasTicks, Bool.or_eq_false_iff] at hp
          have h1 := hp.1
          simp only [ticks, List.isPrefixOf, List.cons_append] at h1 ⊢
          simpa using h1
    rw [show (c :: p') ++ ticks ++ q = c :: (p' ++ ticks ++ q) by simp, splitAtTicks.eq_def]
    simp only [hnp, Bool.false_eq_true, if_false]
    have hp' : hasTicks p' = false := by
      simp only [hasTicks, Bool.or_eq_false_iff] at hp
      exact hp.2
    have hlast' : p'.getLast? ≠ some btick := by
      cases p' with
      | nil => simp
      | cons d p'' =>
        rw [List.getLast?_cons_cons] at hlast
        simpa [List.getLast?] using hlast
    rw [ih hp' hlast']
    rfl

theorem isJsWs_false_ascii {c : Char} (h1 : 33 ≤ c.toNat) (h2 : c.toNat ≤ 125) :
    isJsWs c = false := by
  have e1 : ¬ (c = ' ') := fun hc => by subst hc; revert h1; decide
  have e2 : ¬ (c = '\t') := fun hc => by subst hc; revert h1; decide
  have e3 : ¬ (c = '\n') := fun hc => by subst hc; revert h1; decide
  have e4 : ¬ (c = Char.ofNat 11) := fun hc => by subst hc; revert h1; decide
  have e5 : ¬ (c = Char.ofNat 12) := fun hc => by subst hc; revert h1; decide
  have e6 : ¬ (c = '\r') := fun hc => by subst hc; revert h1; decide
  have f1 : ¬ (c.toNat = 0xa0) := by omega
  have f2 : ¬ (c.toNat = 0x1680) := by omega
  have f3 : ¬ (0x2000 ≤ c.toNat) := by omega
  have f4 : ¬ (c.toNat = 0x2028) := by omega
  have f5 : ¬ (c.toNat = 0x2029) := by omega
  have f6 : ¬ (c.toNat = 0x202f) := by omega
  have f7 : ¬ (c.toNat = 0x205f) := by omega
  have f8 : ¬ (c.toNat = 0x3000) := by omega
  have f9 : ¬ (c.toNat = 0xfeff) := by omega
  simp [isJsWs, e1, e2, e3, e4, e5, e6, f1, f2, f3, f4, f5, f6, f7, f8, f9]

theorem natDigits_last (n : Nat) :
    ∃ d, (natDigits n).getLast? = some d ∧ isDigitCh d = true := by
  rw [natDigits_eq]
  split
  · next h => exact ⟨digitChar n, by simp, isDigitCh_digitChar h⟩
  · next h =>
    exact ⟨digitChar (n % 10), by simp [List.getLast?_concat],
      isDigitCh_digitChar (Nat.mod_lt _ (by omega))⟩

theorem digit_toNat_range {c : Char} (h : isDigitCh c = true) :
    48 ≤ c.toNat ∧ c.toNat ≤ 57 := by
  simpa [isDigitCh] using h

/-- The first character of a printed JSON value is printable ASCII. -/
theorem printJson_head_ascii (v : Json) :
    ∃ c t, printJson v = c :: t ∧ 33 ≤ c.toNat ∧ c.toNat ≤ 125 := by
  cases v with
  | null => exact ⟨'n', ['u', 'l', 'l'], by simp [printJson], by decide, by decide⟩
  | bool b =>
    cases b
    · exact ⟨'f', ['a', 'l', 's', 'e'], by simp [printJson], by decide, by decide⟩
    · exact ⟨'t', ['r', 'u', 'e'], by simp [printJson], by decide, by decide⟩
  | num k =>
    by_cases hk : k < 0
    · exact ⟨'-', natDigits k.natAbs, by simp [printJson, intDigits, hk], by decide, by decide⟩
    · have hpr : printJson (.num k) = natDigits k.toNat := by simp [printJson, intDigits, hk]
      cases hd : natDigits k.toNat with
      | nil => exact absurd hd (natDigits_ne_nil _)
      | cons a l =>
        have ha : isDigitCh a = true := natDigits_all_digits _ a (by rw [hd]; simp)
        obtain ⟨r1, r2⟩ := digit_toNat_range ha
        exact ⟨a, l, by rw [hpr, hd], by omega, by omega⟩
  | str s => exact ⟨'"', escapeString s ++ ['"'], by simp [printJson], by decide, by decide⟩
  | arr xs => exact ⟨'[', printElems xs ++ [']'], by simp [printJson], by decide, by decide⟩
  | obj fs => exact ⟨lbrace, printMembers fs ++ [rbrace], by simp [printJson], by decide,
      by decide⟩

/-- The last character of a printed JSON value is printable ASCII. -/
theorem printJson_last_ascii (v : Json) :
    ∃ c, (printJson v).getLast? = some c ∧ 33 ≤ c.toNat ∧ c.toNat ≤ 125 := by
  cases v with
  | null => exact ⟨'l', by simp [printJson], by decide, by decide⟩
  | bool b =>
    cases b
    · exact ⟨'e', by simp [printJson], by decide, by decide⟩
    · exact ⟨'e', by simp [printJson], by decide, by decide⟩
  | num k =>
    by_cases hk : k < 0
    · obtain ⟨d, hd, hdig⟩ := natDigits_last k.natAbs
      obtain ⟨r1, r2⟩ := digit_toNat_range hdig
      refine ⟨d, ?_, by omega, by omega⟩
      have hpr : printJson (.num k) = '-' :: natDigits k.natAbs := by
        simp [printJson, intDigits, hk]
      rw [hpr]
      cases hnd : natDigits k.natAbs with
      | nil => exact absurd hnd (natDigits_ne_nil _)
      | cons a l =>
        rw [hnd] at hd
        rw [List.getLast?_cons_cons]
        exact hd
    · obtain ⟨d, hd, hdig⟩ := natDigits_last k.toNat
      obtain ⟨r1, r2⟩ := digit_toNat_range hdig
      refine ⟨d, ?_, by omega, by omega⟩
      have hpr : printJson (.num k) = natDigits k.toNat := by simp [printJson, intDigits, hk]
      rw [hpr]
      exact hd
  | str s =>
    refine ⟨'"', ?_, by decide, by decide⟩
    have : printJson (.str s) = ('"' :: escapeString s) ++ ['"'] := by simp [printJson]
    rw [this, List.getLast?_concat]
  | arr xs =>
    refine ⟨']', ?_, by decide, by decide⟩
    have : printJson (.arr xs) = ('[' :: printElems xs) ++ [']'] := by simp [printJson]
    rw [this, List.getLast?_concat]
  | obj fs =>
    refine ⟨rbrace, ?_, by decide, by decide⟩
    have : printJson (.obj fs) = (lbrace :: printMembers fs) ++ [rbrace] := by simp [printJson]
    rw [this, List.getLast?_concat]

theorem jsTrim_eq_self {cs : List Char}
    (h : ∃ c t, cs = c :: t ∧ isJsWs c = false)
    (h2 : ∃ c, cs.getLast? = some c ∧ isJsWs c = false) : jsTrim cs = cs := by
  obtain ⟨c, t, rfl, hc⟩ := h
  obtain ⟨d, hd, hdw⟩ := h2
  unfold jsTrim
  have h3 : (c :: t).dropWhile isJsWs = c :: t := by simp [List.dropWhile_cons, hc]
  rw [h3]
  have h4 : (c :: t).reverse.dropWhile isJsWs = (c :: t).reverse := by
    cases hr : (c :: t).reverse with
    | nil => exact absurd hr (by simp)
    | cons e r =>
      have he : e = d := by
        have hh := List.head?_reverse (c :: t)
        rw [hr, hd] at hh
        simpa using hh
      simp [List.dropWhile_cons, he, hdw]
  rw [h4, List.reverse_reverse]

theorem jsTrim_print (v : Json) : jsTrim (printJson v) = printJson v := by
  obtain ⟨c, t, heq, a1, a2⟩ := printJson_head_ascii v
  obtain ⟨d, hd, b1, b2⟩ := printJson_last_ascii v
  exact jsTrim_eq_self ⟨c, t, heq, isJsWs_false_ascii a1 a2⟩
    ⟨d, hd, isJsWs_false_ascii b1 b2⟩

theorem jsTrim_print_nl (v : Json) : jsTrim (printJson v ++ ['\n']) = printJson v := by
  obtain ⟨c, t, heq, a1, a2⟩ := printJson_head_ascii v
  obtain ⟨d, hd, b1, b2⟩ := printJson_last_ascii v
  have hcw : isJsWs c = false := isJsWs_false_ascii a1 a2
  have hdw : isJsWs d = false := isJsWs_false_ascii b1 b2
  unfold jsTrim
  have h3 : (printJson v ++ ['\n']).dropWhile isJsWs = printJson v ++ ['\n'] := by
    rw [heq, List.cons_append]
    simp [List.dropWhile_cons, hcw]
  rw [h3, List.reverse_append]
  have h4 : (['\n'].reverse ++ (printJson v).reverse).dropWhile isJsWs = (printJson v).reverse := by
    simp only [List.reverse_singleton, List.singleton_append]
    rw [List.dropWhile_cons]
    simp only [show isJsWs '\n' = true by decide, if_true]
    cases hr : (printJson v).reverse with
    | nil =>
      have : printJson v = [] := by simpa using congrArg List.reverse hr
      rw [heq] at this
      cases this
    | cons e r =>
      have he : e = d := by
        have hh := List.head?_reverse (printJson v)
        rw [hr, hd] at hh
        simpa using hh
      simp [List.dropWhile_cons, he, hdw]
  rw [h4, List.reverse_reverse]

theorem ticks_isPrefixOf_append (X : List Char) : ticks.isPrefixOf (ticks ++ X) = true := by
  simp [ticks, List.isPrefixOf]

theorem findFence_wrap {s : List Char} (tag : Bool)
    (hne : ∃ c t, s = c :: t ∧ isJsWs c = false)
    (hticks : hasTicks s = false) :
    findFence ((if tag then fenceWrapTagged s else fenceWrapBare s)) = some (s ++ ['\n']) := by
  obtain ⟨c, t, rfl, hcw⟩ := hne
  have hsp : splitAtTicks ((c :: t ++ ['\n']) ++ ticks ++ []) = some (c :: t ++ ['\n'], []) := by
    refine splitAtTicks_exact ?_ ?_
    · rw [hasTicks_append_single (by decide : '\n' ≠ btick)]
      exact hticks
    · rw [show c :: t ++ ['\n'] = (c :: t) ++ ['\n'] from rfl, List.getLast?_concat]
      simp only [ne_eq, Option.some.injEq]
      decide
  have hdw : (('\n' :: (c :: t ++ '\n' :: ticks)).dropWhile isJsWs)
      = (c :: t ++ ['\n']) ++ ticks ++ [] := by
    rw [List.dropWhile_cons]
    simp only [show isJsWs '\n' = true by decide, if_true, List.cons_append]
    rw [List.dropWhile_cons]
    simp [hcw]
  cases tag with
  | true =>
    rw [if_pos rfl]
    rw [show fenceWrapTagged (c :: t) =
      btick :: (btick :: btick :: (jsonTag ++ '\n' :: (c :: t ++ '\n' :: ticks)))
      by simp [fenceWrapTagged, ticks]]
    rw [findFence, tryFenceAt]
    have hp1 : ticks.isPrefixOf
        (btick :: (btick :: btick :: (jsonTag ++ '\n' :: (c :: t ++ '\n' :: ticks)))) = true := by
      simp [ticks, List.isPrefixOf]
    simp only [hp1, if_true]
    have hd3 : (btick :: (btick :: btick :: (jsonTag ++ '\n' :: (c :: t ++ '\n' :: ticks)))).drop 3
        = jsonTag ++ '\n' :: (c :: t ++ '\n' :: ticks) := rfl
    rw [hd3]
    have hp2 : jsonTag.isPrefixOf (jsonTag ++ '\n' :: (c :: t ++ '\n' :: ticks)) = true := by
      simp [jsonTag, List.isPrefixOf]
    simp only [hp2, if_true]
    have hd4 : (jsonTag ++ '\n' :: (c :: t ++ '\n' :: ticks)).drop 4
        = '\n' :: (c :: t ++ '\n' :: ticks) := rfl
    rw [hd4, hdw, hsp]
    rfl
  | false =>
    rw [if_neg (by simp)]
    rw [show fenceWrapBare (c :: t) =
      btick :: (btick :: btick :: ('\n' :: (c :: t ++ '\n' :: ticks)))
      by simp [fenceWrapBare, ticks]]
    rw [findFence, tryFenceAt]
    have hp1 : ticks.isPrefixOf
        (btick :: (btick :: btick :: ('\n' :: (c :: t ++ '\n' :: ticks)))) = true := by
      simp [ticks, List.isPrefixOf]
    simp only [hp1, if_true]
    have hd3 : (btick :: (btick :: btick :: ('\n' :: (c :: t ++ '\n' :: ticks)))).drop 3
        = '\n' :: (c :: t ++ '\n' :: ticks) := rfl
    rw [hd3]
    have hp2 : jsonTag.isPrefixOf ('\n' :: (c :: t ++ '\n' :: ticks)) = false := by
      simp [jsonTag, List.isPrefixOf]
    simp only [hp2, Bool.false_eq_true, if_false]
    rw [hdw, hsp]
    rfl

/-- Trim and fence behaviour of `parseJsonFromResponse` on a printed value:
the bare serialization and either fence-wrapped form all parse back to the
original value, provided the serialization contains no ``` substring. -/
theorem parseJsonFromResponse_print (v : Json) (hticks : hasTicks (printJson v) = false) :
    parseJsonFromResponse (printJson v) = .ok v ∧
    parseJsonFromResponse (fenceWrapTagged (printJson v)) = .ok v ∧
    parseJsonFromResponse (fenceWrapBare (printJson v)) = .ok v := by
  obtain ⟨c, t, heq, a1, a2⟩ := printJson_head_ascii v
  have hne : ∃ c t, printJson v = c :: t ∧ isJsWs c = false :=
    ⟨c, t, heq, isJsWs_false_ascii a1 a2⟩
  have hbare : stripResponse (printJson v) = printJson v := by
    simp only [stripResponse]
    rw [jsTrim_print, findFence_eq_none hticks]
  have hwrapT : stripResponse (fenceWrapTagged (printJson v)) = printJson v := by
    have htr : jsTrim (fenceWrapTagged (printJson v)) = fenceWrapTagged (printJson v) := by
      refine jsTrim_eq_self
        ⟨btick, btick :: btick :: (jsonTag ++ '\n' :: (printJson v ++ '\n' :: ticks)),
          by simp [fenceWrapTagged, ticks], by decide⟩
        ⟨btick, ?_, by decide⟩
      rw [show fenceWrapTagged (printJson v) =
        (ticks ++ jsonTag ++ '\n' :: (printJson v ++ '\n' :: [btick, btick])) ++ [btick] from by
          simp [fenceWrapTagged, ticks]]
      rw [List.getLast?_concat]
    have hff := findFence_wrap true hne hticks
    rw [if_pos rfl] at hff
    simp only [stripResponse]
    rw [htr, hff]
    simp [jsTrim_print_nl]
  have hwrapB : stripResponse (fenceWrapBare (printJson v)) = printJson v := by
    have htr : jsTrim (fenceWrapBare (printJson v)) = fenceWrapBare (printJson v) := by
      refine jsTrim_eq_self
        ⟨btick, btick :: btick :: ('\n' :: (printJson v ++ '\n' :: ticks)),
          by simp [fenceWrapBare, ticks], by decide⟩
        ⟨btick, ?_, by decide⟩
      rw [show fenceWrapBare (printJson v) =
        (ticks ++ '\n' :: (printJson v ++ '\n' :: [btick, btick])) ++ [btick] from by
          simp [fenceWrapBare, ticks]]
      rw [List.getLast?_concat]
    have hff := findFence_wrap false hne hticks
    rw [if_neg (by simp)] at hff
    simp only [stripResponse]
    rw [htr, hff]
    simp [jsTrim_print_nl]
  refine ⟨?_, ?_, ?_⟩ <;> unfold parseJsonFromResponse
  · rw [hbare, jsonParse_print]
  · rw [hwrapT, jsonParse_print]
  · rw [hwrapB, jsonParse_print]

theorem sampleStep_gt_one {n m : Nat} (h2 : 2 ≤ m) (hlt : m < n) : 1 < sampleStep n m := by
  have hm : (2 : ℚ) ≤ (m : ℚ) := by exact_mod_cast h2
  have hmn : (m : ℚ) < (n : ℚ) := by exact_mod_cast hlt
  unfold sampleStep
  rw [lt_div_iff₀ (by linarith), one_mul]
  linarith

theorem sub_one_ne_zero_of_two_le {m : Nat} (h2 : 2 ≤ m) : ((m : ℚ) - 1) ≠ 0 := by
  have hm : (2 : ℚ) ≤ (m : ℚ) := by exact_mod_cast h2
  intro h0
  have := sub_eq_zero.mp h0
  linarith

theorem jsRound_nonneg {q : ℚ} (h : 0 ≤ q) : 0 ≤ jsRound q := by
  unfold jsRound
  positivity

theorem jsRound_strict_mono {q s : ℚ} (hs : 1 ≤ s) : jsRound q + 1 ≤ jsRound (q + s) := by
  unfold jsRound
  have h1 : (⌊q + 1 / 2⌋ : ℚ) + 1 ≤ (q + 1 / 2) + 1 := by
    have := Int.floor_le (q + 1 / 2)
    linarith
  calc jsRound q + 1 = ⌊q + 1 / 2 + 1⌋ := by rw [jsRound]; exact (Int.floor_add_one _).symm
    _ ≤ ⌊q + s + 1 / 2⌋ := Int.floor_le_floor (by linarith)

theorem floor_natCast_sub_one_add_half (n : Nat) :
    ⌊((n : ℚ) - 1) + 1 / 2⌋ = (n : Int) - 1 := by
  rw [show ((n : ℚ) - 1) + 1 / 2 = (1 / 2 : ℚ) + ((n : Int) - 1 : Int) by push_cast; ring,
    Int.floor_add_int]
  norm_num

theorem sampleIdx_bounds {n m : Nat} (h2 : 2 ≤ m) (hlt : m < n) {i : Nat} (hi : i ≤ m - 1) :
    0 ≤ jsRound ((i : ℚ) * sampleStep n m) ∧
    jsRound ((i : ℚ) * sampleStep n m) ≤ (n : Int) - 1 := by
  have hs1 : 1 < sampleStep n m := sampleStep_gt_one h2 hlt
  refine ⟨jsRound_nonneg (by positivity), ?_⟩
  have hmax : (i : ℚ) * sampleStep n m ≤ ((n : ℚ) - 1) := by
    have him : (i : ℚ) ≤ ((m : ℚ) - 1) := by
      have h1 : ((i : ℚ)) ≤ ((m - 1 : Nat) : ℚ) := by exact_mod_cast hi
      rwa [Nat.cast_sub (by omega), Nat.cast_one] at h1
    have hstep_nn : 0 ≤ sampleStep n m := by linarith
    calc (i : ℚ) * sampleStep n m ≤ ((m : ℚ) - 1) * sampleStep n m :=
          mul_le_mul_of_nonneg_right him hstep_nn
      _ = (n : ℚ) - 1 := by
          unfold sampleStep
          rw [mul_div_cancel₀ _ (sub_one_ne_zero_of_two_le h2)]
  calc jsRound ((i : ℚ) * sampleStep n m) ≤ ⌊((n : ℚ) - 1) + 1 / 2⌋ :=
        Int.floor_le_floor (by linarith)
    _ = (n : Int) - 1 := floor_natCast_sub_one_add_half n

theorem sampleIdx_cast {n m : Nat} (h2 : 2 ≤ m) (hlt : m < n) {i : Nat} (hi : i ≤ m - 1) :
    (sampleIdx n m i : Int) = jsRound ((i : ℚ) * sampleStep n m) := by
  obtain ⟨hnn, hub⟩ := sampleIdx_bounds h2 hlt hi
  unfold sampleIdx
  omega

theorem sampleIdx_lt_length {n m : Nat} (hn : 1 ≤ n) (i : Nat) : sampleIdx n m i < n := by
  unfold sampleIdx
  omega

theorem sampleIdx_zero {n m : Nat} : sampleIdx n m 0 = 0 := by
  unfold sampleIdx jsRound
  norm_num

theorem sampleIdx_last {n m : Nat} (h2 : 2 ≤ m) (hlt : m < n) :
    sampleIdx n m (m - 1) = n - 1 := by
  have hcast : (sampleIdx n m (m - 1) : Int) = jsRound (((m - 1 : Nat) : ℚ) * sampleStep n m) :=
    sampleIdx_cast h2 hlt le_rfl
  have hval : ((m - 1 : Nat) : ℚ) * sampleStep n m = (n : ℚ) - 1 := by
    unfold sampleStep
    rw [show ((m - 1 : Nat) : ℚ) = (m : ℚ) - 1 by
      rw [Nat.cast_sub (by omega), Nat.cast_one]]
    rw [mul_div_cancel₀ _ (sub_one_ne_zero_of_two_le h2)]
  rw [hval, jsRound, floor_natCast_sub_one_add_half] at hcast
  omega

theorem sampleIdx_strict_mono {n m : Nat} (h2 : 2 ≤ m) (hlt : m < n) {i : Nat}
    (hi : i + 1 ≤ m - 1) : sampleIdx n m i < sampleIdx n m (i + 1) := by
  have hs1 : 1 < sampleStep n m := sampleStep_gt_one h2 hlt
  have h1 : (sampleIdx n m i : Int) = jsRound ((i : ℚ) * sampleStep n m) :=
    sampleIdx_cast h2 hlt (by omega)
  have h2' : (sampleIdx n m (i + 1) : Int) = jsRound (((i + 1 : Nat) : ℚ) * sampleStep n m) :=
    sampleIdx_cast h2 hlt hi
  have hmono : jsRound ((i : ℚ) * sampleStep n m) + 1
      ≤ jsRound (((i + 1 : Nat) : ℚ) * sampleStep n m) := by
    have heq : ((i + 1 : Nat) : ℚ) * sampleStep n m
        = (i : ℚ) * sampleStep n m + sampleStep n m := by push_cast; ring
    rw [heq]
    exact jsRound_strict_mono (by linarith)
  omega

/-! ### Map and merge lemmas -/

theorem find?_map_overwrite (m : EvalMap) (k : JsKey) (v : Json)
    (hc : m.any (fun p => p.1 == k) = true) :
    (m.map (fun p => if p.1 == k then (k, v) else p)).find? (fun p => p.1 == k) = some (k, v) := by
  induction m with
  | nil => simp at hc
  | cons p rest ih =>
    simp only [List.any_cons, Bool.or_eq_true] at hc
    by_cases hp : (p.1 == k) = true
    · simp [List.find?, hp]
    · rcases hc with hc1 | hc2
      · exact absurd hc1 hp
      · simp only [List.map_cons, List.find?, hp, if_false, Bool.false_eq_true]
        exact ih hc2

theorem find?_append_fresh (m : EvalMap) (k : JsKey) (v : Json)
    (hc : m.any (fun p => p.1 == k) = false) :
    (m ++ [(k, v)]).find? (fun p => p.1 == k) = some (k, v) := by
  induction m with
  | nil => simp [List.find?]
  | cons p rest ih =>
    simp only [List.any_cons, Bool.or_eq_false_iff] at hc
    simp only [List.cons_append, List.find?, hc.1, Bool.false_eq_true, if_false]
    exact ih hc.2

theorem mapGet_mapSet_self (m : EvalMap) (k : JsKey) (v : Json) :
    mapGet (mapSet m k v) k = some v := by
  unfold mapSet mapGet
  split
  · next hc => rw [find?_map_overwrite m k v hc]; rfl
  · next hc => rw [find?_append_fresh m k v (Bool.eq_false_iff.mpr hc)]; rfl

theorem find?_map_overwrite_other (m : EvalMap) (k k' : JsKey) (v : Json)
    (hkk : (k == k') = false) :
    (m.map (fun p => if p.1 == k then (k, v) else p)).find? (fun p => p.1 == k')
      = m.find? (fun p => p.1 == k') := by
  induction m with
  | nil => simp
  | cons p rest ih =>
    by_cases hp : (p.1 == k) = true
    · have hpk : p.1 = k := by simpa using hp
      have hp' : (p.1 == k') = false := by rw [hpk]; exact hkk
      simp only [List.map_cons, List.find?, hp, if_true, hkk, hp', Bool.false_eq_true, if_false]
      exact ih
    · simp only [List.map_cons, List.find?, hp, Bool.false_eq_true, if_false]
      by_cases hp' : (p.1 == k') = true
      · simp [List.find?, hp']
      · simp only [List.find?, hp', Bool.false_eq_true, if_false]
        exact ih

theorem find?_append_other (m : EvalMap) (k k' : JsKey) (v : Json)
    (hkk : (k == k') = false) :
    (m ++ [(k, v)]).find? (fun p => p.1 == k') = m.find? (fun p => p.1 == k') := by
  induction m with
  | nil => simp [List.find?, hkk]
  | cons p rest ih =>
    by_cases hp' : (p.1 == k') = true
    · simp [List.find?, hp']
    · simp only [List.cons_append, List.find?, hp', Bool.false_eq_true, if_false]
      exact ih

theorem mapGet_mapSet_other (m : EvalMap) {k k' : JsKey} (v : Json) (hne : k' ≠ k) :
    mapGet (mapSet m k v) k' = mapGet m k' := by
  have hkk : (k == k') = false := by
    simp only [beq_eq_false_iff_ne, ne_eq]
    exact fun h => hne h.symm
  unfold mapSet mapGet
  split
  · rw [find?_map_overwrite_other m k k' v hkk]
  · rw [find?_append_other m k k' v hkk]

theorem mapKeys_mapSet (m : EvalMap) (k : JsKey) (v : Json) :
    mapKeys (mapSet m k v)
      = if m.any (fun p => p.1 == k) then mapKeys m else mapKeys m ++ [k] := by
  unfold mapSet mapKeys
  split
  · simp only [List.map_map]
    congr 1
    funext p
    by_cases hp : (p.1 == k) = true
    · have : p.1 = k := by simpa using hp
      simp [Function.comp, hp, this]
    · simp [Function.comp, hp]
  · simp

theorem mapKeys_mapSet_nodup {m : EvalMap} (k : JsKey) (v : Json)
    (h : (mapKeys m).Nodup) : (mapKeys (mapSet m k v)).Nodup := by
  rw [mapKeys_mapSet]
  split
  · exact h
  · next hc =>
    rw [List.nodup_append]
    refine ⟨h, List.nodup_singleton _, ?_⟩
    intro a ha hb
    simp only [List.mem_singleton] at hb
    have : m.any (fun p => p.1 == k) = true := by
      rw [List.any_eq_true]
      obtain ⟨p, hp, hpa⟩ := List.mem_map.mp ha
      exact ⟨p, hp, by simp [hpa, hb]⟩
    simp [this] at hc

theorem mergeEvalsP_append (m : EvalMap) (serial : Nat) (es1 es2 : List Json) :
    mergeEvalsP m serial (es1 ++ es2)
      = match mergeEvalsP m serial es1 with
        | (m', s', none) => mergeEvalsP m' s' es2
        | r => r := by
  induction es1 generalizing m serial with
  | nil => simp [mergeEvalsP]
  | cons e rest ih =>
    rw [List.cons_append, mergeEvalsP]
    conv_rhs => rw [mergeEvalsP]
    cases h1 : evalIdStep e with
    | error er => rfl
    | ok idO =>
      cases idO with
      | none => exact ih _ _
      | some idv =>
        by_cases ht : idv.truthy = true
        · simp only [ht, if_true]
          exact ih _ _
        · simp only [Bool.not_eq_true] at ht
          simp only [ht, Bool.false_eq_true, if_false]
          exact ih _ _

theorem mergeEvalsP_keys_mem {ids : List (List Char)} :
    ∀ (es : List Json) (m : EvalMap) (serial : Nat),
    (∀ e ∈ es, ∀ idv, evalIdStep e = .ok (some idv) → idv.truthy = true →
        ∃ id ∈ ids, idv = Json.str id) →
    ∀ k ∈ mapKeys (mergeEvalsP m serial es).1, k ∈ mapKeys m ∨ ∃ id ∈ ids, k = JsKey.str id := by
  intro es
  induction es with
  | nil => intro m serial _ k hk; exact Or.inl (by simpa [mergeEvalsP] using hk)
  | cons e rest ih =>
    intro m serial hh k hk
    rw [mergeEvalsP] at hk
    cases h1 : evalIdStep e with
    | error er => rw [h1] at hk; exact Or.inl hk
    | ok idO =>
      rw [h1] at hk
      cases idO with
      | none => exact ih m (serial + 1) (fun e' he' => hh e' (by simp [he'])) k hk
      | some idv =>
        dsimp only at hk
        by_cases ht : idv.truthy = true
        · rw [if_pos ht] at hk
          have hrec := ih (mapSet m (keyOfJson idv serial) e) (serial + 1)
            (fun e' he' => hh e' (by simp [he'])) k hk
          rcases hrec with hmem | hid
          · rw [mapKeys_mapSet] at hmem
            split at hmem
            · exact Or.inl hmem
            · rcases List.mem_append.mp hmem with h4 | h4
              · exact Or.inl h4
              · simp only [List.mem_singleton] at h4
                subst h4
                obtain ⟨id, hid, hidv⟩ := hh e (by simp) idv h1 ht
                subst hidv
                exact Or.inr ⟨id, hid, rfl⟩
          · exact Or.inr hid
        · simp only [Bool.not_eq_true] at ht
          rw [ht] at hk
          simp only [Bool.false_eq_true, if_false] at hk
          exact ih m (serial + 1) (fun e' he' => hh e' (by simp [he'])) k hk

theorem mergeEvalsP_nodup {m : EvalMap} (h : (mapKeys m).Nodup) :
    ∀ (es : List Json) (serial : Nat), (mapKeys (mergeEvalsP m serial es).1).Nodup := by
  intro es
  induction es generalizing m with
  | nil => intro serial; simpa [mergeEvalsP] using h
  | cons e rest ih =>
    intro serial
    rw [mergeEvalsP]
    cases evalIdStep e with
    | error er => exact h
    | ok idO =>
      cases idO with
      | none => exact ih h _
      | some idv =>
        dsimp only
        by_cases ht : idv.truthy = true
        · rw [if_pos ht]
          exact ih (mapKeys_mapSet_nodup _ _ h) _
        · simp only [Bool.not_eq_true] at ht
          rw [ht]
          simp only [Bool.false_eq_true, if_false]
          exact ih h _

theorem mapSet_fresh {m : EvalMap} {k : JsKey} (v : Json)
    (h : m.any (fun p => p.1 == k) = false) : mapSet m k v = m ++ [(k, v)] := by
  unfold mapSet
  rw [if_neg (by simp [h])]

theorem singleEntries_keys (respond : Nat → List Block) :
    ∀ (as : List Assertion) (i : Nat),
    mapKeys (singleEntries respond as i) = as.map (fun a => JsKey.str a.id) := by
  intro as
  induction as with
  | nil => intro i; rfl
  | cons a rest ih => intro i; simp [singleEntries, mapKeys, ih (i + 1), mapKeys] at ih ⊢; exact ih (i + 1)

theorem singleGo_eq_append (respond : Nat → List Block) :
    ∀ (as : List Assertion) (i : Nat) (m : EvalMap) (serial : Nat),
    (∀ j, (hj : j < as.length) → ∀ e, (responseEvals (respond (i + j))).head? = some e →
        e.truthy = true →
        singleEffId e (as.get ⟨j, hj⟩).id = Json.str (as.get ⟨j, hj⟩).id) →
    (∀ a ∈ as, m.any (fun p => p.1 == JsKey.str a.id) = false) →
    (as.map Assertion.id).Nodup →
    singleGo respond as i m serial = m ++ singleEntries respond as i := by
  intro as
  induction as with
  | nil => intro i m serial _ _ _; simp [singleGo, singleEntries]
  | cons a rest ih =>
    intro i m serial hhon hfresh hnd
    have hfa : m.any (fun p => p.1 == JsKey.str a.id) = false := hfresh a (by simp)
    simp only [List.map_cons, List.nodup_cons] at hnd
    have hfresh' : ∀ b ∈ rest,
        (m ++ [(JsKey.str a.id, singleEntryVal a (respond i))]).any
          (fun p => p.1 == JsKey.str b.id) = false := by
      intro b hb
      rw [List.any_append]
      have h1 : (JsKey.str a.id == JsKey.str b.id) = false := by
        simp only [beq_eq_false_iff_ne, ne_eq, JsKey.str.injEq]
        intro hab
        exact hnd.1 (hab ▸ List.mem_map_of_mem Assertion.id hb)
      simp [hfresh b (by simp [hb]), h1]
    have hhon' : ∀ j, (hj : j < rest.length) → ∀ e,
        (responseEvals (respond (i + 1 + j))).head? = some e → e.truthy = true →
        singleEffId e (rest.get ⟨j, hj⟩).id = Json.str (rest.get ⟨j, hj⟩).id := by
      intro j hj e hhead ht
      have := hhon (j + 1) (by simpa using Nat.succ_lt_succ hj) e
        (by rw [show i + (j + 1) = i + 1 + j by omega]; exact hhead) ht
      simpa using this
    rw [singleGo]
    cases hhead : (responseEvals (respond i)).head? with
    | some e =>
      dsimp only
      by_cases ht : e.truthy = true
      · rw [if_pos ht]
        have hid : singleEffId e a.id = Json.str a.id := by
          have := hhon 0 (by simp) e (by simpa using hhead) ht
          simpa using this
        rw [hid]
        show singleGo respond rest (i + 1) (mapSet m (JsKey.str a.id) e) (serial + 1) = _
        rw [mapSet_fresh e hfa]
        have hval : singleEntryVal a (respond i) = e := by
          unfold singleEntryVal
          rw [hhead]
          simp [ht]
        rw [ih (i + 1) _ (serial + 1) hhon' (hval ▸ hfresh') hnd.2]
        simp [singleEntries, hval]
      · simp only [Bool.not_eq_true] at ht
        rw [ht]
        simp only [Bool.false_eq_true, if_false]
        rw [mapSet_fresh _ hfa]
        have hval : singleEntryVal a (respond i) = fallbackEval a.id := by
          unfold singleEntryVal
          rw [hhead]
          simp [ht]
        rw [ih (i + 1) _ serial hhon' (hval ▸ hfresh') hnd.2]
        simp [singleEntries, hval]
    | none =>
      dsimp only
      rw [mapSet_fresh _ hfa]
      have hval : singleEntryVal a (respond i) = fallbackEval a.id := by
        unfold singleEntryVal
        rw [hhead]
      rw [ih (i + 1) _ serial hhon' (hval ▸ hfresh') hnd.2]
      simp [singleEntries, hval]

theorem singleEntries_get (respond : Nat → List Block) :
    ∀ (as : List Assertion), (as.map Assertion.id).Nodup →
    ∀ (i : Nat) (j : Nat) (hj : j < as.length),
    mapGet (singleEntries respond as i) (JsKey.str (as.get ⟨j, hj⟩).id)
      = some (singleEntryVal (as.get ⟨j, hj⟩) (respond (i + j))) := by
  intro as
  induction as with
  | nil => intro _ i j hj; cases hj
  | cons a rest ih =>
    intro hnd i j hj
    simp only [List.map_cons, List.nodup_cons] at hnd
    cases j with
    | zero =>
      simp only [List.get, singleEntries, mapGet, List.find?, beq_self_eq_true, Nat.add_zero]
      rfl
    | succ j' =>
      have hne : (a.id = (rest.get ⟨j', by simpa using hj⟩).id) → False := by
        intro hab
        exact hnd.1 (hab ▸ List.mem_map_of_mem Assertion.id (rest.get_mem _ _))
      have hb : (JsKey.str a.id == JsKey.str (rest.get ⟨j', by simpa using hj⟩).id) = false := by
        simp only [beq_eq_false_iff_ne, ne_eq, JsKey.str.injEq]
        exact hne
      simp only [List.get, singleEntries, mapGet, List.find?]
      rw [show ((JsKey.str a.id, singleEntryVal a (respond i)).1
          == JsKey.str ((rest.get ⟨j', by simpa using hj⟩).id)) = false from hb]
      simp only [Bool.false_eq_true, if_false]
      have := ih hnd.2 (i + 1) j' (by simpa using hj)
      rw [show i + 1 + j' = i + (j' + 1) by omega] at this
      exact this

/-! ### Bridges between the tool envelopes and the parsed model output -/

theorem jsGetField_single_obj (K : List Char) (v : Json) :
    jsGetField (Json.obj [(K, v)]) K = .ok (some v) := by
  unfold jsGetField
  simp

theorem responseEvals_of_ok {resp : List Block} {evals : List Json}
    (h : evaluateAssertions resp = .ok evals) : responseEvals resp = evals := by
  simp only [evaluateAssertions] at h
  unfold responseEvals
  cases hp : parseJsonFromResponse (extractText resp) with
  | error er => rw [hp] at h; exact absurd h (by simp)
  | ok parsed =>
    rw [hp] at h
    dsimp only at h ⊢
    cases hg : jsGetField parsed evaluationsField with
    | error er => rw [hg] at h; exact absurd h (by simp)
    | ok evO =>
      rw [hg] at h
      cases evO with
      | none => exact Except.ok.inj h
      | some ev => cases ev <;> exact Except.ok.inj h

theorem executeTool_describe (ti : Option Json) (assertions : List Assertion)
    (resp : Nat → List Block) (callIdx : Nat) :
    executeTool ("describe_timeline".toList) ti assertions resp callIdx
      = match describeTimeline (resp callIdx) with
        | .ok tl => (⟨printJson (.obj [(timelineField, .arr tl)]), false⟩, callIdx + 1)
        | .error er => (errEnvelope er, callIdx + 1) := by
  rw [executeTool.eq_def, if_pos rfl]

theorem executeTool_evaluate (ti : Option Json) (assertions : List Assertion)
    (resp : Nat → List Block) (callIdx : Nat) {o : Option Json}
    (ho : jsGetFieldO ti timelineField = .ok o) :
    executeTool ("evaluate_assertions".toList) ti assertions resp callIdx
      = match evaluateAssertions (resp callIdx) with
        | .ok evals => (⟨printJson (.obj [(evaluationsField, .arr evals)]), false⟩, callIdx + 1)
        | .error er => (errEnvelope er, callIdx + 1) := by
  rw [executeTool.eq_def, if_neg (by decide), if_pos rfl, ho]

theorem executeTool_unknown {name : List Char} (ti : Option Json)
    (assertions : List Assertion) (resp : Nat → List Block) (callIdx : Nat)
    (h1 : ¬ name = "describe_timeline".toList) (h2 : ¬ name = "evaluate_assertions".toList) :
    executeTool name ti assertions resp callIdx
      = (⟨printJson (.obj [(errorField, .str ("Unknown tool: ".toList ++ name))]), true⟩,
          callIdx) := by
  rw [executeTool.eq_def, if_neg h1, if_neg h2]

/-- The shape of the evaluations accumulator after one block: untouched, or
the merge of the inner `evaluate_assertions` backend result. -/
theorem processBlock_evals_shape (assertions : List Assertion) (resp : Nat → List Block)
    (st : LoopState) (b : Block) :
    (processBlock assertions resp st b).evals = st.evals ∨
    ∃ evals, evaluateAssertions (resp st.callIdx) = .ok evals ∧
      (processBlock assertions resp st b).evals = (mergeEvalsP st.evals st.serial evals).1 := by
  cases b with
  | text s => exact Or.inl rfl
  | other => exact Or.inl rfl
  | toolUse bid name input =>
    by_cases h1 : name = "describe_timeline".toList
    · subst h1
      refine Or.inl ?_
      simp only [processBlock]
      rw [executeTool_describe]
      cases hdt : describeTimeline (resp st.callIdx) with
      | ok tl =>
        dsimp only
        rw [if_pos (by simp), jsonParse_print]
        simp [jsGetField_single_obj]
      | error er =>
        dsimp only
        rw [if_neg (by simp [errEnvelope]), if_neg (by simp)]
    · by_cases h2 : name = "evaluate_assertions".toList
      · subst h2
        obtain ⟨ti, hti, o, ho⟩ : ∃ ti, (match input with
            | some j => if j.truthy then some j else some (Json.obj [])
            | none => some (Json.obj [])) = ti ∧
            ∃ o, jsGetFieldO ti timelineField = .ok o := by
          cases input with
          | none => exact ⟨some (Json.obj []), rfl, _, rfl⟩
          | some j =>
            cases hj : j.truthy with
            | false => exact ⟨some (Json.obj []), by simp [hj], _, rfl⟩
            | true =>
              refine ⟨some j, by simp [hj], ?_⟩
              cases j with
              | null => simp [Json.truthy] at hj
              | bool b => exact ⟨_, rfl⟩
              | num n => exact ⟨_, rfl⟩
              | str s => exact ⟨_, rfl⟩
              | arr xs => exact ⟨_, rfl⟩
              | obj fs => exact ⟨_, rfl⟩
        simp only [processBlock]
        rw [hti, executeTool_evaluate _ assertions resp st.callIdx ho]
        cases hev : evaluateAssertions (resp st.callIdx) with
        | error er =>
          refine Or.inl ?_
          dsimp only
          rw [if_neg (by simp [h1]), if_neg (by simp [errEnvelope])]
        | ok evals =>
          refine Or.inr ⟨evals, rfl, ?_⟩
          dsimp only
          rw [if_neg (by simp [h1]), if_pos (by simp)]
          rw [jsonParse_print]
          simp [jsGetField_single_obj]
      · refine Or.inl ?_
        simp only [processBlock]
        rw [executeTool_unknown _ assertions resp st.callIdx h1 h2]
        dsimp only
        rw [if_neg (by simp [h1]), if_neg (by simp [h2])]

theorem processBlock_keys {ids : List (List Char)} (assertions : List Assertion)
    (resp : Nat → List Block)
    (honest : ∀ n, ∀ e ∈ responseEvals (resp n), honestEvals ids e)
    (st : LoopState) (b : Block) :
    ∀ k ∈ mapKeys (processBlock assertions resp st b).evals,
      k ∈ mapKeys st.evals ∨ ∃ id ∈ ids, k = JsKey.str id := by
  intro k hk
  rcases processBlock_evals_shape assertions resp st b with hsh | ⟨evals, hev, hsh⟩
  · exact Or.inl (hsh ▸ hk)
  · rw [hsh] at hk
    refine mergeEvalsP_keys_mem evals st.evals st.serial ?_ k hk
    intro e he idv h1 h2
    exact honest st.callIdx e (responseEvals_of_ok hev ▸ he) idv h1 h2

theorem processBlock_nodup (assertions : List Assertion) (resp : Nat → List Block)
    (st : LoopState) (b : Block) (h : (mapKeys st.evals).Nodup) :
    (mapKeys (processBlock assertions resp st b).evals).Nodup := by
  rcases processBlock_evals_shape assertions resp st b with hsh | ⟨evals, _, hsh⟩
  · exact hsh ▸ h
  · exact hsh ▸ mergeEvalsP_nodup h evals st.serial

theorem foldl_processBlock_keys {ids : List (List Char)} (assertions : List Assertion)
    (resp : Nat → List Block)
    (honest : ∀ n, ∀ e ∈ responseEvals (resp n), honestEvals ids e) :
    ∀ (blocks : List Block) (st : LoopState),
    (∀ k ∈ mapKeys st.evals, ∃ id ∈ ids, k = JsKey.str id) →
    ∀ k ∈ mapKeys (blocks.foldl (processBlock assertions resp) st).evals,
      ∃ id ∈ ids, k = JsKey.str id := by
  intro blocks
  induction blocks with
  | nil => intro st hst k hk; exact hst k hk
  | cons b rest ih =>
    intro st hst k hk
    refine ih (processBlock assertions resp st b) ?_ k hk
    intro k' hk'
    rcases processBlock_keys assertions resp honest st b k' hk' with hm | hid
    · exact hst k' hm
    · exact hid

theorem foldl_processBlock_nodup (assertions : List Assertion) (resp : Nat → List Block) :
    ∀ (blocks : List Block) (st : LoopState), (mapKeys st.evals).Nodup →
    (mapKeys (blocks.foldl (processBlock assertions resp) st).evals).Nodup := by
  intro blocks
  induction blocks with
  | nil => intro st h; exact h
  | cons b rest ih =>
    intro st h
    exact ih _ (processBlock_nodup assertions resp st b h)

theorem agenticGo_keys_inv {ids : List (List Char)} (assertions : List Assertion)
    (respond : Nat → ModelResponse)
    (honest : ∀ n, ∀ e ∈ responseEvals ((respond n).content), honestEvals ids e) :
    ∀ (fuel : Nat) (st : LoopState),
    (∀ k ∈ mapKeys st.evals, ∃ id ∈ ids, k = JsKey.str id) →
    ∀ k ∈ mapKeys (agenticGo assertions respond fuel st).evaluations,
      ∃ id ∈ ids, k = JsKey.str id := by
  intro fuel
  induction fuel with
  | zero => intro st hst k hk; exact hst k hk
  | succ f ih =>
    intro st hst k hk
    rw [agenticGo] at hk
    by_cases hstop : (respond st.callIdx).stop_reason ≠ "tool_use".toList
    · rw [if_pos hstop] at hk
      exact hst k hk
    · rw [if_neg hstop] at hk
      simp only at hk
      refine ih _ ?_ k hk
      exact foldl_processBlock_keys assertions _ honest _ _ hst

theorem agenticGo_nodup (assertions : List Assertion) (respond : Nat → ModelResponse) :
    ∀ (fuel : Nat) (st : LoopState), (mapKeys st.evals).Nodup →
    (mapKeys (agenticGo assertions respond fuel st).evaluations).Nodup := by
  intro fuel
  induction fuel with
  | zero => intro st h; exact h
  | succ f ih =>
    intro st h
    rw [agenticGo]
    by_cases hstop : (respond st.callIdx).stop_reason ≠ "tool_use".toList
    · rw [if_pos hstop]
      exact h
    · rw [if_neg hstop]
      simp only
      exact ih _ (foldl_processBlock_nodup assertions _ _ _ h)

theorem agenticGo_turns_le (assertions : List Assertion) (respond : Nat → ModelResponse) :
    ∀ (fuel : Nat) (st : LoopState), (agenticGo assertions respond fuel st).turns ≤ fuel := by
  intro fuel
  induction fuel with
  | zero => intro st; exact le_rfl
  | succ f ih =>
    intro st
    rw [agenticGo]
    by_cases hstop : (respond st.callIdx).stop_reason ≠ "tool_use".toList
    · rw [if_pos hstop]
      simp
    · rw [if_neg hstop]
      simp only
      exact Nat.succ_le_succ (ih _)

/-! ### Further bridges used by the claim theorems -/

theorem responseEvals_error {blocks : List Block} {er : JsErr}
    (h : parseJsonFromResponse (extractText blocks) = .error er) :
    responseEvals blocks = [] := by
  unfold responseEvals
  rw [h]

theorem singleEntries_all_fallback (respond : Nat → List Block)
    (hhead : ∀ i, (responseEvals (respond i)).head? = none) :
    ∀ (as : List Assertion) (i : Nat),
    singleEntries respond as i = as.map (fun a => (JsKey.str a.id, fallbackEval a.id)) := by
  intro as
  induction as with
  | nil => intro i; rfl
  | cons a rest ih =>
    intro i
    rw [singleEntries, ih (i + 1), List.map_cons]
    unfold singleEntryVal
    rw [hhead i]

theorem merge_match_ok {tl : List Json} {t : EvalMap × Nat × Option JsErr}
    {r : PipelineResult}
    (hr : (match t with
            | (_, _, some er) => Except.error er
            | (m, _, none) => Except.ok { timeline := tl, evaluations := m })
          = Except.ok r) :
    r.timeline = tl ∧ r.evaluations = t.1 := by
  obtain ⟨m, s, err⟩ := t
  cases err with
  | some er => exact absurd hr (by simp)
  | none =>
    dsimp only at hr
    rw [← Except.ok.inj hr]
    exact ⟨rfl, rfl⟩

theorem runBatchPipeline_ok {assertions : List Assertion} {respond : Nat → List Block}
    {r : PipelineResult} (hr : runBatchPipeline assertions respond = .ok r) :
    r.timeline = []
    ∧ r.evaluations = (mergeEvalsP [] 0 (responseEvals (respond 0))).1 := by
  unfold runBatchPipeline at hr
  dsimp only at hr
  cases hp : parseJsonFromResponse (extractText (respond 0)) with
  | error er => rw [hp] at hr; exact absurd hr (by simp)
  | ok parsed =>
    rw [hp] at hr
    dsimp only at hr
    cases hg : jsGetField parsed evaluationsField with
    | error er => rw [hg] at hr; exact absurd hr (by simp)
    | ok evO =>
      rw [hg] at hr
      dsimp only at hr
      cases evO with
      | none =>
        have hre : responseEvals (respond 0) = [] := by
          unfold responseEvals
          rw [hp]
          dsimp only
          rw [hg]
        rw [hre]
        exact merge_match_ok hr
      | some ev =>
        cases ev with
        | null =>
          have hre : responseEvals (respond 0) = [] := by
            unfold responseEvals
            rw [hp]
            dsimp only
            rw [hg]
          rw [hre]
          exact merge_match_ok hr
        | bool b =>
          have hre : responseEvals (respond 0) = [] := by
            unfold responseEvals
            rw [hp]
            dsimp only
            rw [hg]
          rw [hre]
          exact merge_match_ok hr
        | num n =>
          have hre : responseEvals (respond 0) = [] := by
            unfold responseEvals
            rw [hp]
            dsimp only
            rw [hg]
          rw [hre]
          exact merge_match_ok hr
        | str s =>
          have hre : responseEvals (respond 0) = [] := by
            unfold responseEvals
            rw [hp]
            dsimp only
            rw [hg]
          rw [hre]
          exact merge_match_ok hr
        | arr xs =>
          have hre : responseEvals (respond 0) = xs := by
            unfold responseEvals
            rw [hp]
            dsimp only
            rw [hg]
          rw [hre]
          exact merge_match_ok hr
        | obj fs =>
          have hre : responseEvals (respond 0) = [] := by
            unfold responseEvals
            rw [hp]
            dsimp only
            rw [hg]
          rw [hre]
          exact merge_match_ok hr
theorem runTwoPassPipeline_ok {assertions : List Assertion} {respond : Nat → List Block}
    {r : PipelineResult} (hr : runTwoPassPipeline assertions respond = .ok r) :
    r.evaluations = (mergeEvalsP [] 0 (responseEvals (respond 1))).1 := by
  unfold runTwoPassPipeline at hr
  cases hd : describeTimeline (respond 0) with
  | error er => rw [hd] at hr; exact absurd hr (by simp)
  | ok tl =>
    rw [hd] at hr
    dsimp only at hr
    cases he : evaluateAssertions (respond 1) with
    | error er => rw [he] at hr; exact absurd hr (by simp)
    | ok evals =>
      rw [he] at hr
      dsimp only at hr
      rw [responseEvals_of_ok he]
      exact (merge_match_ok hr).2

theorem processBlock_describe_ok (assertions : List Assertion) (resp : Nat → List Block)
    (st : LoopState) (bid : List Char) (input : Option Json) {tl : List Json}
    (hdt : describeTimeline (resp st.callIdx) = .ok tl) :
    processBlock assertions resp st (.toolUse bid "describe_timeline".toList input)
      = { timeline := tl, evals := st.evals, serial := st.serial,
          callIdx := st.callIdx + 1 } := by
  simp only [processBlock]
  rw [executeTool_describe, hdt]
  dsimp only
  rw [if_pos (by simp), jsonParse_print]
  simp [jsGetField_single_obj]

theorem processBlock_evaluate_ok (assertions : List Assertion) (resp : Nat → List Block)
    (st : LoopState) (bid : List Char) (input : Option Json) {evals : List Json}
    (hev : evaluateAssertions (resp st.callIdx) = .ok evals) :
    processBlock assertions resp st (.toolUse bid "evaluate_assertions".toList input)
      = { timeline := st.timeline,
          evals := (mergeEvalsP st.evals st.serial evals).1,
          serial := (mergeEvalsP st.evals st.serial evals).2.1,
          callIdx := st.callIdx + 1 } := by
  obtain ⟨ti, hti, o, ho⟩ : ∃ ti, (match input with
      | some j => if j.truthy then some j else some (Json.obj [])
      | none => some (Json.obj [])) = ti ∧
      ∃ o, jsGetFieldO ti timelineField = .ok o := by
    cases input with
    | none => exact ⟨some (Json.obj []), rfl, _, rfl⟩
    | some j =>
      cases hj : j.truthy with
      | false => exact ⟨some (Json.obj []), by simp [hj], _, rfl⟩
      | true =>
        refine ⟨some j, by simp [hj], ?_⟩
        cases j with
        | null => simp [Json.truthy] at hj
        | bool b => exact ⟨_, rfl⟩
        | num n => exact ⟨_, rfl⟩
        | str s => exact ⟨_, rfl⟩
        | arr xs => exact ⟨_, rfl⟩
        | obj fs => exact ⟨_, rfl⟩
  simp only [processBlock]
  rw [hti, executeTool_evaluate _ assertions resp st.callIdx ho, hev]
  dsimp only
  rw [if_neg (by simp), if_pos (by simp)]
  rw [jsonParse_print]
  simp [jsGetField_single_obj]

/-! ### Helpers for the frame-sampler claim -/

theorem length_filterMap_isSome {β γ : Type} (f : β → Option γ) :
    ∀ l : List β, (∀ x ∈ l, (f x).isSome) → (l.filterMap f).length = l.length := by
  intro l
  induction l with
  | nil => intro _; rfl
  | cons x rest ih =>
    intro h
    rw [List.filterMap_cons]
    cases hf : f x with
    | none => exact absurd (hf ▸ h x (by simp)) (by simp)
    | some y => simp [ih (fun z hz => h z (by simp [hz]))]

theorem sampleFramesEvenly_identity {α : Type} (frames : List α) {m : Nat}
    (h : frames.length ≤ m) : sampleFramesEvenly frames m = frames := by
  unfold sampleFramesEvenly
  rw [if_pos h]

theorem sampleFramesEvenly_eq_filterMap {α : Type} (frames : List α) {m : Nat}
    (h : ¬ frames.length ≤ m) :
    sampleFramesEvenly frames m
      = ((List.range m).map (sampleIdx frames.length m)).filterMap frames.get? := by
  unfold sampleFramesEvenly
  rw [if_neg h, List.filterMap_map]
  rfl

theorem sampleFramesEvenly_length {α : Type} (frames : List α) {m : Nat} (h2 : 2 ≤ m)
    (hlt : m < frames.length) : (sampleFramesEvenly frames m).length = m := by
  rw [sampleFramesEvenly_eq_filterMap frames (by omega),
    length_filterMap_isSome _ _ ?_, List.length_map, List.length_range]
  intro i hi
  obtain ⟨j, -, rfl⟩ := List.mem_map.mp hi
  rw [List.get?_eq_get (sampleIdx_lt_length (by omega) j)]
  rfl

theorem sampleIdx_range_chain {n m : Nat} (h2 : 2 ≤ m) (hlt : m < n) :
    ((List.range m).map (sampleIdx n m)).Chain' (fun a b => a < b) := by
  rw [List.chain'_map]
  obtain ⟨k, rfl⟩ : ∃ k, m = k + 1 := ⟨m - 1, by omega⟩
  rw [List.chain'_range_succ]
  intro i hi
  exact sampleIdx_strict_mono h2 hlt (by omega)

theorem range_map_head {m : Nat} (f : Nat → Nat) (h : 0 < m) :
    ((List.range m).map f).head? = some (f 0) := by
  obtain ⟨k, rfl⟩ : ∃ k, m = k + 1 := ⟨m - 1, by omega⟩
  rw [List.range_succ_eq_map]
  simp

theorem range_map_getLast {m : Nat} (f : Nat → Nat) (h : 0 < m) :
    ((List.range m).map f).getLast? = some (f (m - 1)) := by
  obtain ⟨k, rfl⟩ : ∃ k, m = k + 1 := ⟨m - 1, by omega⟩
  rw [List.range_succ, List.map_append]
  simp

/-! ### The claim theorems -/

/-- Claim C1 (amended): the exact key-set equality of `runSinglePipeline` holds
only when the model is honest about ids — every truthy first evaluation of a
response carries the effective id of the assertion it was asked about — and the
input ids are distinct.  Under those hypotheses the key set of the returned
evaluations map is exactly the input assertion id list, and a call whose
response is empty or unparseable maps its assertion to the synthetic fallback
evaluation.  Unconditionally the claim is false: the key is
`e.assertionId || e.id || assertion.id`, so a model-supplied id replaces the
real one (see the counterexample). -/
theorem C1_single_key_set (assertions : List Assertion) (respond : Nat → List Block)
    (honest : ∀ j (hj : j < assertions.length) (e : Json),
        (responseEvals (respond j)).head? = some e → e.truthy = true →
        singleEffId e (assertions.get ⟨j, hj⟩).id = Json.str (assertions.get ⟨j, hj⟩).id)
    (hnd : (assertions.map Assertion.id).Nodup) :
    mapKeys (runSinglePipeline assertions respond).evaluations
      = assertions.map (fun a => JsKey.str a.id)
    ∧ ∀ j (hj : j < assertions.length), fallbackTriggered (respond j) = true →
        mapGet (runSinglePipeline assertions respond).evaluations
            (JsKey.str (assertions.get ⟨j, hj⟩).id)
          = some (fallbackEval (assertions.get ⟨j, hj⟩).id) := by
  have honest0 : ∀ j (hj : j < assertions.length) (e : Json),
      (responseEvals (respond (0 + j))).head? = some e → e.truthy = true →
      singleEffId e (assertions.get ⟨j, hj⟩).id = Json.str (assertions.get ⟨j, hj⟩).id := by
    intro j hj e hh ht
    exact honest j hj e (by rwa [Nat.zero_add] at hh) ht
  have hgo : singleGo respond assertions 0 [] 0 = singleEntries respond assertions 0 := by
    have := singleGo_eq_append respond assertions 0 [] 0 honest0 (fun a _ => rfl) hnd
    simpa using this
  constructor
  · show mapKeys (singleGo respond assertions 0 [] 0) = _
    rw [hgo, singleEntries_keys]
  · intro j hj hfb
    show mapGet (singleGo respond assertions 0 [] 0) _ = _
    rw [hgo, singleEntries_get respond assertions hnd 0 j hj, Nat.zero_add]
    unfold singleEntryVal
    unfold fallbackTriggered at hfb
    cases hh : (responseEvals (respond j)).head? with
    | none => rfl
    | some e =>
      rw [hh] at hfb
      dsimp only at hfb
      simp only [Bool.not_eq_true'] at hfb
      simp [hfb]

/-- A model-supplied `assertionId` replaces the real key in the
single-strategy map: the sole returned key is `bogus`, not the input id `a1`,
refuting the unconditional key-set equality of C1. -/
theorem C1_invented_id_cex :
    mapKeys (runSinglePipeline [a1] inventedIdResponse).evaluations
      = [JsKey.str "bogus".toList]
    ∧ mapKeys (runSinglePipeline [a1] inventedIdResponse).evaluations
      ≠ [a1].map (fun a => JsKey.str a.id) :=
  ⟨rfl, by decide⟩

/-- Witness for C1 at one assertion and the empty model response. -/
theorem C1_single_key_set_witness :
    (∀ j (hj : j < ([a1] : List Assertion).length) (e : Json),
        (responseEvals (emptyResponse j)).head? = some e → e.truthy = true →
        singleEffId e (([a1] : List Assertion).get ⟨j, hj⟩).id
          = Json.str (([a1] : List Assertion).get ⟨j, hj⟩).id)
    ∧ (([a1] : List Assertion).map Assertion.id).Nodup
    ∧ (mapKeys (runSinglePipeline [a1] emptyResponse).evaluations
        = ([a1] : List Assertion).map (fun a => JsKey.str a.id)
      ∧ ∀ j (hj : j < ([a1] : List Assertion).length),
          fallbackTriggered (emptyResponse j) = true →
          mapGet (runSinglePipeline [a1] emptyResponse).evaluations
              (JsKey.str (([a1] : List Assertion).get ⟨j, hj⟩).id)
            = some (fallbackEval (([a1] : List Assertion).get ⟨j, hj⟩).id)) := by
  have hhon : ∀ j (hj : j < ([a1] : List Assertion).length) (e : Json),
      (responseEvals (emptyResponse j)).head? = some e → e.truthy = true →
      singleEffId e (([a1] : List Assertion).get ⟨j, hj⟩).id
        = Json.str (([a1] : List Assertion).get ⟨j, hj⟩).id := by
    intro j hj e hh ht
    rw [show responseEvals (emptyResponse j) = [] from rfl] at hh
    exact Option.noConfusion hh
  have hnd : (([a1] : List Assertion).map Assertion.id).Nodup := by decide
  exact ⟨hhon, hnd, C1_single_key_set [a1] emptyResponse hhon hnd⟩

/-- Claim C2 (amended): the no-invented-ids invariant holds only under the
honesty hypothesis that every truthy effective id the model returns is one of
the given ids; then every key of the batch, two-pass and agentic maps is a
string of the id set.  Unconditionally the claim is false: batch, two-pass and
the agentic merge key by the model-supplied `e.assertionId || e.id` (see the
counterexample). -/
theorem C2_no_invented_keys (ids : List (List Char)) (assertions : List Assertion)
    (respond : Nat → List Block) (aresp : Nat → ModelResponse)
    (honest : ∀ n, ∀ e ∈ responseEvals (respond n), honestEvals ids e)
    (ahonest : ∀ n, ∀ e ∈ responseEvals ((aresp n).content), honestEvals ids e) :
    (∀ r, runBatchPipeline assertions respond = .ok r →
        ∀ k ∈ mapKeys r.evaluations, ∃ id ∈ ids, k = JsKey.str id)
    ∧ (∀ r, runTwoPassPipeline assertions respond = .ok r →
        ∀ k ∈ mapKeys r.evaluations, ∃ id ∈ ids, k = JsKey.str id)
    ∧ (∀ k ∈ mapKeys (runAgenticPipeline assertions aresp).2,
        ∃ id ∈ ids, k = JsKey.str id) := by
  refine ⟨?_, ?_, ?_⟩
  · intro r hr k hk
    rw [(runBatchPipeline_ok hr).2] at hk
    rcases mergeEvalsP_keys_mem (responseEvals (respond 0)) [] 0 (honest 0) k hk with hm | hid
    · exact absurd hm (by simp [mapKeys])
    · exact hid
  · intro r hr k hk
    rw [runTwoPassPipeline_ok hr] at hk
    rcases mergeEvalsP_keys_mem (responseEvals (respond 1)) [] 0 (honest 1) k hk with hm | hid
    · exact absurd hm (by simp [mapKeys])
    · exact hid
  · intro k hk
    exact agenticGo_keys_inv assertions aresp ahonest MAX_AGENT_TURNS
      { timeline := [], evals := [], serial := 0, callIdx := 0 }
      (fun x hx => absurd hx (by simp [mapKeys])) k hk

/-- The batch pipeline keys an evaluation by the invented model-supplied id
`bogus`, which is not in the input id set, refuting the unconditional
invariant of C2. -/
theorem C2_invented_key_cex :
    (runBatchPipeline [a1] inventedIdResponse).map (fun r => mapKeys r.evaluations)
      = .ok [JsKey.str "bogus".toList]
    ∧ "bogus".toList ∉ [a1].map Assertion.id :=
  ⟨rfl, by decide⟩

/-- Witness for C2 at one assertion, the empty model response and the
immediately ending orchestrator. -/
theorem C2_no_invented_keys_witness :
    (∀ n, ∀ e ∈ responseEvals (emptyResponse n), honestEvals ["a1".toList] e)
    ∧ (∀ n, ∀ e ∈ responseEvals ((endTurnResponse n).content), honestEvals ["a1".toList] e)
    ∧ ((∀ r, runBatchPipeline [a1] emptyResponse = .ok r →
          ∀ k ∈ mapKeys r.evaluations, ∃ id ∈ ["a1".toList], k = JsKey.str id)
      ∧ (∀ r, runTwoPassPipeline [a1] emptyResponse = .ok r →
          ∀ k ∈ mapKeys r.evaluations, ∃ id ∈ ["a1".toList], k = JsKey.str id)
      ∧ (∀ k ∈ mapKeys (runAgenticPipeline [a1] endTurnResponse).2,
          ∃ id ∈ ["a1".toList], k = JsKey.str id)) := by
  have h1 : ∀ n, ∀ e ∈ responseEvals (emptyResponse n), honestEvals ["a1".toList] e := by
    intro n e he
    rw [show responseEvals (emptyResponse n) = [] from rfl] at he
    exact absurd he (List.not_mem_nil e)
  have h2 : ∀ n, ∀ e ∈ responseEvals ((endTurnResponse n).content),
      honestEvals ["a1".toList] e := by
    intro n e he
    rw [show responseEvals ((endTurnResponse n).content) = [] from rfl] at he
    exact absurd he (List.not_mem_nil e)
  exact ⟨h1, h2, C2_no_invented_keys ["a1".toList] [a1] emptyResponse endTurnResponse h1 h2⟩

/-- Claim C3 (amended): a parse failure is caught locally only by the single
strategy (which stores the fallback evaluation for every assertion) and by the
tool executor (which returns an error envelope); it is NOT caught by the batch
and two-pass pipelines, which have no try/catch and propagate the error out of
the pipeline, refuting the never-aborts part of the claim (see the
counterexample). -/
theorem C3_parse_failure_handling (assertions : List Assertion)
    (respond : Nat → List Block) (er : JsErr)
    (hfail : ∀ i, parseJsonFromResponse (extractText (respond i)) = .error er)
    (hnd : (assertions.map Assertion.id).Nodup) :
    runBatchPipeline assertions respond = .error er
    ∧ runTwoPassPipeline assertions respond = .error er
    ∧ (runSinglePipeline assertions respond).evaluations
        = assertions.map (fun a => (JsKey.str a.id, fallbackEval a.id))
    ∧ (executeTool "describe_timeline".toList none assertions respond 0).1
        = errEnvelope er := by
  have hdt : ∀ i, describeTimeline (respond i) = .error er := by
    intro i
    unfold describeTimeline
    dsimp only
    rw [hfail i]
  have hre : ∀ i, responseEvals (respond i) = [] := fun i => responseEvals_error (hfail i)
  refine ⟨?_, ?_, ?_, ?_⟩
  · unfold runBatchPipeline
    dsimp only
    rw [hfail 0]
  · unfold runTwoPassPipeline
    rw [hdt 0]
  · show singleGo respond assertions 0 [] 0 = _
    have hhon : ∀ j (hj : j < assertions.length) (e : Json),
        (responseEvals (respond (0 + j))).head? = some e → e.truthy = true →
        singleEffId e (assertions.get ⟨j, hj⟩).id = Json.str (assertions.get ⟨j, hj⟩).id := by
      intro j hj e hh ht
      rw [hre (0 + j)] at hh
      exact Option.noConfusion hh
    rw [singleGo_eq_append respond assertions 0 [] 0 hhon (fun a _ => rfl) hnd,
      List.nil_append,
      singleEntries_all_fallback respond (fun i => by rw [hre i]; rfl) assertions 0]
  · rw [executeTool_describe, hdt 0]

/-- A non-JSON model response makes `runBatchPipeline` and `runTwoPassPipeline`
return the malformed-output error — the parse failure propagates out of the
strategy pipeline, refuting the locality part of C3. -/
theorem C3_parse_failure_propagates_cex :
    runBatchPipeline [a1] nonJsonResponse = .error JsErr.malformedOutput
    ∧ runTwoPassPipeline [a1] nonJsonResponse = .error JsErr.malformedOutput :=
  ⟨rfl, rfl⟩

/-- Witness for C3 at one assertion and the non-JSON model response. -/
theorem C3_parse_failure_handling_witness :
    (∀ i, parseJsonFromResponse (extractText (nonJsonResponse i))
        = .error JsErr.malformedOutput)
    ∧ (([a1] : List Assertion).map Assertion.id).Nodup
    ∧ (runBatchPipeline [a1] nonJsonResponse = .error JsErr.malformedOutput
      ∧ runTwoPassPipeline [a1] nonJsonResponse = .error JsErr.malformedOutput
      ∧ (runSinglePipeline [a1] nonJsonResponse).evaluations
          = ([a1] : List Assertion).map (fun a => (JsKey.str a.id, fallbackEval a.id))
      ∧ (executeTool "describe_timeline".toList none [a1] nonJsonResponse 0).1
          = errEnvelope JsErr.malformedOutput) :=
  ⟨fun i => rfl, by decide,
    C3_parse_failure_handling [a1] nonJsonResponse JsErr.malformedOutput (fun i => rfl)
      (by decide)⟩

/-- Claim C4: the agentic loop runs at most `MAX_AGENT_TURNS = 10` turns;
exhausted fuel returns whatever timeline and evaluations were harvested so far
without an error, and a response whose stop reason is not `tool_use` ends the
loop immediately with the results harvested up to that point. -/
theorem C4_agentic_turn_bound (assertions : List Assertion)
    (respond : Nat → ModelResponse) :
    (runAgenticStats assertions respond).turns ≤ MAX_AGENT_TURNS
    ∧ (∀ st : LoopState, agenticGo assertions respond 0 st
        = { timeline := st.timeline, evaluations := st.evals, turns := 0,
            nextCall := st.callIdx })
    ∧ (∀ (fuel : Nat) (st : LoopState),
        (respond st.callIdx).stop_reason ≠ "tool_use".toList →
        agenticGo assertions respond (fuel + 1) st
          = { timeline := st.timeline, evaluations := st.evals, turns := 1,
              nextCall := st.callIdx + 1 }) := by
  refine ⟨agenticGo_turns_le assertions respond MAX_AGENT_TURNS _, fun st => rfl, ?_⟩
  intro fuel st h
  rw [agenticGo]
  dsimp only
  rw [if_pos h]

/-- Claim C5: for `2 ≤ M < N` the sampler returns exactly `M` frames, the
frames at the strictly increasing indices `round(i * (N-1)/(M-1))` clamped to
`[0, N-1]`, which start at index `0` and end at index `N-1`; for `N ≤ M` it
returns the input unchanged, and resampling is idempotent. -/
theorem C5_sample_frames_evenly {α : Type} (frames : List α) (m : Nat) (h2 : 2 ≤ m) :
    (m < frames.length →
       sampleFramesEvenly frames m
         = ((List.range m).map (sampleIdx frames.length m)).filterMap frames.get?
       ∧ (sampleFramesEvenly frames m).length = m
       ∧ ((List.range m).map (sampleIdx frames.length m)).Chain' (fun a b => a < b)
       ∧ ((List.range m).map (sampleIdx frames.length m)).head? = some 0
       ∧ ((List.range m).map (sampleIdx frames.length m)).getLast?
           = some (frames.length - 1)
       ∧ ∀ i, sampleIdx frames.length m i
           = min (jsRound ((i : ℚ) * (((frames.length : ℚ) - 1) / ((m : ℚ) - 1)))).toNat
               (frames.length - 1))
    ∧ (frames.length ≤ m → sampleFramesEvenly frames m = frames)
    ∧ sampleFramesEvenly (sampleFramesEvenly frames m) m = sampleFramesEvenly frames m := by
  refine ⟨?_, fun h => sampleFramesEvenly_identity frames h, ?_⟩
  · intro hlt
    refine ⟨sampleFramesEvenly_eq_filterMap frames (by omega),
      sampleFramesEvenly_length frames h2 hlt,
      sampleIdx_range_chain h2 hlt, ?_, ?_, ?_⟩
    · rw [range_map_head _ (by omega), sampleIdx_zero]
    · rw [range_map_getLast _ (by omega), sampleIdx_last h2 hlt]
    · intro i
      unfold sampleIdx sampleStep
      rfl
  · by_cases hle : frames.length ≤ m
    · rw [sampleFramesEvenly_identity frames hle]
      exact sampleFramesEvenly_identity frames hle
    · exact sampleFramesEvenly_identity (sampleFramesEvenly frames m)
        (le_of_eq (sampleFramesEvenly_length frames h2 (by omega)))

/-- Witness for C5 at a three-frame list and cap 2. -/
theorem C5_sample_frames_evenly_witness :
    2 ≤ 2
    ∧ ((2 < ([10, 20, 30] : List Nat).length →
         sampleFramesEvenly ([10, 20, 30] : List Nat) 2
           = ((List.range 2).map (sampleIdx ([10, 20, 30] : List Nat).length 2)).filterMap
               ([10, 20, 30] : List Nat).get?
         ∧ (sampleFramesEvenly ([10, 20, 30] : List Nat) 2).length = 2
         ∧ ((List.range 2).map (sampleIdx ([10, 20, 30] : List Nat).length 2)).Chain'
             (fun a b => a < b)
         ∧ ((List.range 2).map (sampleIdx ([10, 20, 30] : List Nat).length 2)).head?
             = some 0
         ∧ ((List.range 2).map (sampleIdx ([10, 20, 30] : List Nat).length 2)).getLast?
             = some (([10, 20, 30] : List Nat).length - 1)
         ∧ ∀ i, sampleIdx ([10, 20, 30] : List Nat).length 2 i
             = min (jsRound ((i : ℚ) * (((([10, 20, 30] : List Nat).length : ℚ) - 1)
                 / ((2 : ℚ) - 1)))).toNat (([10, 20, 30] : List Nat).length - 1))
      ∧ (([10, 20, 30] : List Nat).length ≤ 2 →
          sampleFramesEvenly ([10, 20, 30] : List Nat) 2 = [10, 20, 30])
      ∧ sampleFramesEvenly (sampleFramesEvenly ([10, 20, 30] : List Nat) 2) 2
          = sampleFramesEvenly ([10, 20, 30] : List Nat) 2) :=
  ⟨by decide, C5_sample_frames_evenly ([10, 20, 30] : List Nat) 2 (by decide)⟩

/-- Claim C6 (amended): the fence round trip holds for every serialized value
that contains no triple backtick: parsing the bare serialization, the
json-tagged fence wrap and the untagged fence wrap all return the original
value, and any text that is not valid JSON after stripping and trimming fails
with the malformed-output error.  For a serialization containing a triple
backtick the fence-wrapped parse differs from the bare parse (see the
counterexample), so the backtick-free hypothesis is necessary. -/
theorem C6_parse_round_trip (v : Json) (hticks : hasTicks (printJson v) = false) :
    parseJsonFromResponse (printJson v) = .ok v
    ∧ parseJsonFromResponse (fenceWrapTagged (printJson v)) = .ok v
    ∧ parseJsonFromResponse (fenceWrapBare (printJson v)) = .ok v
    ∧ ∀ text, jsonParse (stripResponse text) = none →
        parseJsonFromResponse text = .error JsErr.malformedOutput := by
  obtain ⟨hb, ht, hw⟩ := parseJsonFromResponse_print v hticks
  refine ⟨hb, ht, hw, ?_⟩
  intro text hnone
  unfold parseJsonFromResponse
  rw [hnone]

/-- A string value whose serialization contains a triple backtick parses
correctly bare but fails inside either fence wrap: the lazy fence regex stops
at the inner backticks, refuting the unconditional round trip of C6. -/
theorem C6_fence_backtick_cex :
    hasTicks (printJson tickyJson) = true
    ∧ parseJsonFromResponse (printJson tickyJson) = .ok tickyJson
    ∧ parseJsonFromResponse (fenceWrapTagged (printJson tickyJson))
        = .error JsErr.malformedOutput
    ∧ parseJsonFromResponse (fenceWrapBare (printJson tickyJson))
        = .error JsErr.malformedOutput :=
  ⟨rfl, rfl, rfl, rfl⟩

/-- Witness for C6 at the numeral 42. -/
theorem C6_parse_round_trip_witness :
    hasTicks (printJson (Json.num 42)) = false
    ∧ (parseJsonFromResponse (printJson (Json.num 42)) = .ok (Json.num 42)
      ∧ parseJsonFromResponse (fenceWrapTagged (printJson (Json.num 42)))
          = .ok (Json.num 42)
      ∧ parseJsonFromResponse (fenceWrapBare (printJson (Json.num 42)))
          = .ok (Json.num 42)
      ∧ ∀ text, jsonParse (stripResponse text) = none →
          parseJsonFromResponse text = .error JsErr.malformedOutput) :=
  ⟨rfl, C6_parse_round_trip (Json.num 42) rfl⟩

/-- Claim C7: for every tool name other than the two known tools the executor
returns an envelope with `isError = true` whose content parses as
`{error: "Unknown tool: <name>"}`, and every call of the executor returns an
envelope (it never raises past its own boundary). -/
theorem C7_unknown_tool_envelope (name : List Char) (ti : Option Json)
    (assertions : List Assertion) (respond : Nat → List Block) (callIdx : Nat)
    (h1 : name ≠ "describe_timeline".toList) (h2 : name ≠ "evaluate_assertions".toList) :
    (executeTool name ti assertions respond callIdx).1.isError = true
    ∧ jsonParse (executeTool name ti assertions respond callIdx).1.content
        = some (.obj [(errorField, .str ("Unknown tool: ".toList ++ name))])
    ∧ ∀ (nm : List Char) (tj : Option Json) (c : Nat),
        ∃ env k, executeTool nm tj assertions respond c = (env, k) := by
  rw [executeTool_unknown ti assertions respond callIdx h1 h2]
  exact ⟨rfl, jsonParse_print _, fun nm tj c => ⟨_, _, rfl⟩⟩

/-- Witness for C7 at the unknown tool name `bogus`. -/
theorem C7_unknown_tool_envelope_witness :
    "bogus".toList ≠ "describe_timeline".toList
    ∧ "bogus".toList ≠ "evaluate_assertions".toList
    ∧ ((executeTool "bogus".toList none [] emptyResponse 0).1.isError = true
      ∧ jsonParse (executeTool "bogus".toList none [] emptyResponse 0).1.content
          = some (.obj [(errorField, .str ("Unknown tool: ".toList ++ "bogus".toList))])
      ∧ ∀ (nm : List Char) (tj : Option Json) (c : Nat),
          ∃ env k, executeTool nm tj [] emptyResponse c = (env, k)) :=
  ⟨by decide, by decide,
    C7_unknown_tool_envelope "bogus".toList none [] emptyResponse 0 (by decide) (by decide)⟩

/-- Claim C8: inside the agentic loop a successful `describe_timeline` result
replaces the running timeline entirely (overwrite, not append), a successful
`evaluate_assertions` result merges its evaluations into the running map with
last-write-wins overwrite by id (`mapSet` overwrites an existing key and leaves
other keys alone), and the final agentic map holds at most one evaluation per
key. -/
theorem C8_timeline_overwrite_eval_merge (assertions : List Assertion)
    (resp : Nat → List Block) (aresp : Nat → ModelResponse) (st : LoopState)
    (bid : List Char) (input : Option Json) :
    (∀ tl, describeTimeline (resp st.callIdx) = .ok tl →
      (processBlock assertions resp st
          (.toolUse bid "describe_timeline".toList input)).timeline = tl)
    ∧ (∀ evals, evaluateAssertions (resp st.callIdx) = .ok evals →
      (processBlock assertions resp st
          (.toolUse bid "evaluate_assertions".toList input)).evals
        = (mergeEvalsP st.evals st.serial evals).1)
    ∧ (∀ (m : EvalMap) (k : JsKey) (v : Json), mapGet (mapSet m k v) k = some v)
    ∧ (∀ (m : EvalMap) (k kk : JsKey) (v : Json), kk ≠ k →
        mapGet (mapSet m k v) kk = mapGet m kk)
    ∧ (mapKeys (runAgenticPipeline assertions aresp).2).Nodup := by
  refine ⟨?_, ?_, mapGet_mapSet_self, fun m k kk v h => mapGet_mapSet_other m v h, ?_⟩
  · intro tl hdt
    rw [processBlock_describe_ok assertions resp st bid input hdt]
  · intro evals hev
    rw [processBlock_evaluate_ok assertions resp st bid input hev]
  · exact agenticGo_nodup assertions aresp MAX_AGENT_TURNS _ (by simp [mapKeys])

/-- Claim C9: `runBatchPipeline` and `runSinglePipeline` always return an
empty timeline, whatever the responses; the two-pass pipeline can return a
non-empty one. -/
theorem C9_empty_timeline_batch_single (assertions : List Assertion)
    (respond : Nat → List Block) :
    (runSinglePipeline assertions respond).timeline = []
    ∧ (∀ r, runBatchPipeline assertions respond = .ok r → r.timeline = [])
    ∧ ∃ (resp2 : Nat → List Block) (r : PipelineResult),
        runTwoPassPipeline assertions resp2 = .ok r ∧ r.timeline ≠ [] := by
  refine ⟨rfl, fun r hr => (runBatchPipeline_ok hr).1, ?_⟩
  refine ⟨timelineResponse, { timeline := [Json.num 1], evaluations := [] }, rfl, ?_⟩
  exact List.cons_ne_nil _ _

/-- Claim C10: every strategy value other than the exact strings `single` and
`batch` — including `undefined` (none), the empty string and unrecognized
names — makes `runPipeline` dispatch to the two-pass pipeline; an unknown
strategy is never rejected. -/
theorem C10_default_two_pass (strategy : Option (List Char))
    (assertions : List Assertion) (respond : Nat → List Block)
    (h1 : strategy ≠ some "single".toList) (h2 : strategy ≠ some "batch".toList) :
    runPipeline strategy assertions respond = runTwoPassPipeline assertions respond := by
  unfold runPipeline
  cases strategy with
  | none =>
    dsimp only
    rw [if_neg (by decide), if_neg (by decide)]
  | some s =>
    dsimp only
    by_cases he : s.isEmpty = true
    · rw [if_pos he, if_neg (by decide), if_neg (by decide)]
    · rw [if_neg he,
        if_neg (fun hs => h1 (by rw [hs])),
        if_neg (fun hs => h2 (by rw [hs]))]

/-- Witness for C10 at the unrecognized strategy name `agentic`. -/
theorem C10_default_two_pass_witness :
    some "agentic".toList ≠ some "single".toList
    ∧ some "agentic".toList ≠ some "batch".toList
    ∧ runPipeline (some "agentic".toList) [a1] emptyResponse
        = runTwoPassPipeline [a1] emptyResponse :=
  ⟨by decide, by decide,
    C10_default_two_pass (some "agentic".toList) [a1] emptyResponse (by decide) (by decide)⟩

end DIVE
